import Mathlib

/-!
Shallow embedding of the report-writer core
(`outline_parser.py`, `data_catalog.py`, `chart_reader.py`,
`section_mapper.py`) and proofs about it.

Strings are modelled as `List Char` (ASCII-faithful: the Python string
primitives `lower`, `strip`, `split`, `startswith`, `in`, `int(...)` are
reproduced character by character over code points); tabular `val` data is
modelled as `ℚ` (the Python floats of interest are exact decimals and all
claim-relevant operations are field operations and comparisons).
All definitions are executable by kernel reduction (structural recursion or
explicit fuel; no well-founded recursion on the evaluation paths).
-/

namespace RW

/-! ### Python character classes and string primitives -/

/-- Python `str.lower` on one code point (ASCII range, as in `slugify`). -/
def pyToLower (c : Char) : Char :=
  if 65 ≤ c.toNat ∧ c.toNat ≤ 90 then Char.ofNat (c.toNat + 32) else c

/-- ASCII decimal digit, Python `str.isdigit` / regex `\d` on ASCII. -/
def isDigitC (c : Char) : Bool := 48 ≤ c.toNat && c.toNat ≤ 57

/-- ASCII letter. -/
def isAlphaC (c : Char) : Bool :=
  (65 ≤ c.toNat && c.toNat ≤ 90) || (97 ≤ c.toNat && c.toNat ≤ 122)

/-- Python regex `\w` (word character), ASCII range: letter, digit or underscore. -/
def isWordChar (c : Char) : Bool := isAlphaC c || isDigitC c || c.toNat = 95

/-- Python whitespace (`str.strip`, regex `\s`): space, tab, newline,
carriage return, vertical tab, form feed. -/
def pyIsSpaceC (c : Char) : Bool :=
  c.toNat = 32 || c.toNat = 9 || c.toNat = 10 || c.toNat = 13 ||
  c.toNat = 11 || c.toNat = 12

/-- Drop satisfying characters from the end of a list. -/
def dropWhileEnd (p : Char → Bool) (l : List Char) : List Char :=
  (l.reverse.dropWhile p).reverse

/-- Python `str.strip(chars)`: drop satisfying characters from both ends. -/
def pyStripP (p : Char → Bool) (l : List Char) : List Char :=
  dropWhileEnd p (l.dropWhile p)

/-- Python `str.strip()` (whitespace strip). -/
def pyStrip (l : List Char) : List Char := pyStripP pyIsSpaceC l

/-- Python `str.lower()`. -/
def pyLower (l : List Char) : List Char := l.map pyToLower

/-- Python `str.split(sep)` for a one-character separator: keeps empty chunks,
`""` splits to `[""]`. -/
def splitOnCharL (sep : Char) : List Char → List (List Char)
  | [] => [[]]
  | c :: cs =>
    let r := splitOnCharL sep cs
    if c = sep then [] :: r
    else
      match r with
      | [] => [[c]]
      | h :: t => (c :: h) :: t

/-- Python `str.split()` (no argument): split on whitespace runs, no empty
chunks. `cur` accumulates the current word in reverse. -/
def pySplitWSAux (cur : List Char) : List Char → List (List Char)
  | [] => if cur.isEmpty then [] else [cur.reverse]
  | c :: cs =>
    if pyIsSpaceC c then
      if cur.isEmpty then pySplitWSAux [] cs
      else cur.reverse :: pySplitWSAux [] cs
    else pySplitWSAux (c :: cur) cs

def pySplitWS (l : List Char) : List (List Char) := pySplitWSAux [] l

/-- Python substring containment `pat in s`. -/
def containsSubstr (pat : List Char) : List Char → Bool
  | [] => pat.isEmpty
  | c :: cs => List.isPrefixOf pat (c :: cs) || containsSubstr pat cs

/-- Replace every maximal run of characters satisfying `p` by the single
character `r` (regex `re.sub("[..]+", r, s)`), written as a structural
state machine (`inRun` = currently inside a run). -/
def replaceRunsAux (p : Char → Bool) (r : Char) : Bool → List Char → List Char
  | _, [] => []
  | inRun, c :: cs =>
    if p c then
      if inRun then replaceRunsAux p r true cs
      else r :: replaceRunsAux p r true cs
    else c :: replaceRunsAux p r false cs

def replaceRuns (p : Char → Bool) (r : Char) (l : List Char) : List Char :=
  replaceRunsAux p r false l

/-- Code-point lexicographic strict order on character lists: Python `str <`. -/
def lexLt : List Char → List Char → Bool
  | [], [] => false
  | [], _ :: _ => true
  | _ :: _, [] => false
  | a :: as, b :: bs =>
    if a.toNat < b.toNat then true
    else if b.toNat < a.toNat then false
    else lexLt as bs

/-- Python `str <` on `String` values. -/
def strLt (a b : String) : Bool := lexLt a.toList b.toList

/-- Split at the first occurrence of `sep` (`str.split(sep, 1)` with `sep`
known to occur); returns the input and `[]` when `sep` is absent. -/
def splitFirstAt (sep : Char) : List Char → List Char × List Char
  | [] => ([], [])
  | c :: cs =>
    if c = sep then ([], cs)
    else
      let r := splitFirstAt sep cs
      (c :: r.1, r.2)

/-- Find the first occurrence of the (nonempty) pattern `sep`; return the text
before it and the text after it. -/
def breakOnSub (sep : List Char) : List Char → Option (List Char × List Char)
  | [] => if List.isPrefixOf sep [] then some ([], []) else none
  | c :: cs =>
    if List.isPrefixOf sep (c :: cs) then some ([], (c :: cs).drop sep.length)
    else (breakOnSub sep cs).map (fun r => (c :: r.1, r.2))

/-- Python `str.split(sep)` for a multi-character separator, with explicit
fuel (`l.length + 1` always suffices). -/
def splitOnSubAux (sep : List Char) : Nat → List Char → List (List Char)
  | 0, l => [l]
  | fuel + 1, l =>
    match breakOnSub sep l with
    | none => [l]
    | some r => r.1 :: splitOnSubAux sep fuel r.2

def splitOnSub (sep l : List Char) : List (List Char) :=
  splitOnSubAux sep (l.length + 1) l

/-- Python `dict` assignment `d[k] = v` on an association list: overwrite in
place if the key exists, else append. -/
def insertOverwrite {β : Type} (k : List Char) (v : β) :
    List (List Char × β) → List (List Char × β)
  | [] => [(k, v)]
  | (k2, v2) :: t => if k2 = k then (k, v) :: t else (k2, v2) :: insertOverwrite k v t

/-- Python `dict` lookup `d.get(k)` on an association list. -/
def lookupA {β : Type} (k : List Char) : List (List Char × β) → Option β
  | [] => none
  | (k2, v2) :: t => if k2 = k then some v2 else lookupA k t

/-- Python `int(value)` for an already-stripped string: optional sign, then
digits with single underscores allowed between digits. -/
def digitsTailOK : List Char → Bool
  | [] => true
  | c :: rest =>
    if c.toNat = 95 then
      match rest with
      | [] => false
      | d :: rest2 => isDigitC d && digitsTailOK rest2
    else isDigitC c && digitsTailOK rest

def digitsValue (l : List Char) : Nat :=
  (l.filter (fun c => c.toNat ≠ 95)).foldl (fun n c => n * 10 + (c.toNat - 48)) 0

def pyParseInt (l : List Char) : Option Int :=
  let core : List Char → Option Nat := fun m =>
    match m with
    | [] => none
    | d :: _ => if isDigitC d && digitsTailOK m then some (digitsValue m) else none
  match l with
  | '+' :: rest => (core rest).map (fun n => (n : Int))
  | '-' :: rest => (core rest).map (fun n => -(n : Int))
  | _ => (core l).map (fun n => (n : Int))

end RW

namespace RW.OutlineParser

open RW

/-! ### outline_parser.py -/

/-- Model of `slugify` (outline_parser.py lines 20-26): lowercase and strip, delete
characters outside `[\w\s-]`, replace `[\s_]+` runs by `-`, collapse `-+`
runs, strip hyphens. -/
def slugifyL (title : List Char) : List Char :=
  let s1 := pyStrip (pyLower title)
  let s2 := s1.filter (fun c => isWordChar c || pyIsSpaceC c || c = '-')
  let s3 := replaceRuns (fun c => pyIsSpaceC c || c.toNat = 95) '-' s2
  let s4 := replaceRuns (fun c => c = '-') '-' s3
  pyStripP (fun c => c = '-') s4

def slugify (s : String) : String := ⟨slugifyL s.toList⟩

/-- Result triple of `parse_review_block`: `(author, ratings, notes)`. -/
structure ReviewResult where
  author : List Char
  ratings : List (List Char × Int)
  notes : List Char
deriving DecidableEq

/-- One `key=value` entry of a `RATING:` line: requires an `=`, a nonempty
stripped value that parses as a Python integer; the key is stripped. -/
def parsePair (pr0 : List Char) : Option (List Char × Int) :=
  let pr := pyStrip pr0
  if pr.contains '=' then
    let kv := splitFirstAt '=' pr
    let value := pyStrip kv.2
    if value.isEmpty then none
    else
      match pyParseInt value with
      | some n => some (pyStrip kv.1, n)
      | none => none
  else none

/-- One iteration of the pair loop of a `RATING:` line: a failed pair is
dropped, a successful one is written into the dict (overwriting). -/
def ratingStep (acc2 : List (List Char × Int)) (pr : List Char) :
    List (List Char × Int) :=
  match parsePair pr with
  | some kv => insertOverwrite kv.1 kv.2 acc2
  | none => acc2

/-- Fold the comma-separated pairs of a `RATING:` line into the ratings
dict. -/
def processRatingLine (part : List Char) (acc : List (List Char × Int)) :
    List (List Char × Int) :=
  (splitOnCharL ',' part).foldl ratingStep acc

/-- Mutable state of the line loop in `parse_review_block`. -/
structure RBState where
  author : List Char
  ratings : List (List Char × Int)
  notesStarted : Bool
  notesLines : List (List Char)

def sentinelTag : List Char := "[EXAMPLE - LLM IGNORE:".toList

def authorTag : List Char := "AUTHOR:".toList

def ratingTag : List Char := "RATING:".toList

def notesTag : List Char := "NOTES:".toList

/-- The line loop of `parse_review_block` (outline_parser.py lines 42-68);
a sentinel line stops processing entirely. -/
def processLines : List (List Char) → RBState → RBState
  | [], st => st
  | line :: rest, st =>
    let ls := pyStrip line
    if List.isPrefixOf sentinelTag ls then st
    else if List.isPrefixOf authorTag ls then
      processLines rest { st with author := pyStrip (ls.drop 7) }
    else if List.isPrefixOf ratingTag ls then
      processLines rest
        { st with ratings := processRatingLine (pyStrip (ls.drop 7)) st.ratings }
    else if List.isPrefixOf notesTag ls then
      let nc := pyStrip (ls.drop 6)
      processLines rest
        { st with notesStarted := true,
                  notesLines := st.notesLines ++ if nc.isEmpty then [] else [nc] }
    else if st.notesStarted then
      processLines rest { st with notesLines := st.notesLines ++ [ls] }
    else processLines rest st

/-- Model of `parse_review_block` (outline_parser.py lines 29-71). -/
def parse_review_block (text : List Char) : ReviewResult :=
  if (pyStrip text).isEmpty then ⟨[], [], []⟩
  else
    let lines := splitOnCharL '\n' (pyStrip text)
    let st := processLines lines ⟨[], [], false, []⟩
    ⟨st.author, st.ratings, pyStrip (List.intercalate ['\n'] st.notesLines)⟩

/-- One ATX heading match of the heading regex
`^(#{1,6})\s+(.+?)\s*$` : its level (number of `#`) and title text.
`parse_outline` is modelled from this match list on; the regex scan over the
raw markdown and the per-span comment extraction (which do not affect the
structural claims) are not re-modelled. -/
structure Heading where
  level : Nat
  title : String
deriving DecidableEq

/-- A parsed section record (`Section` dataclass): the structural fields.
The text fields (`instructions`, `review_*`, `content`) are extracted from
the heading's span independently of the parent computation and are omitted
here. -/
structure Section where
  id : String
  title : String
  level : Nat
  parent_id : Option String
deriving DecidableEq

/-- The `while parent_stack and parent_stack[-1][0] >= level: pop` loop;
the stack is kept top-first. -/
def popGE (level : Nat) : List (Nat × String) → List (Nat × String)
  | [] => []
  | e :: t => if e.1 ≥ level then popGE level t else e :: t

/-- The heading loop of `parse_outline` (outline_parser.py lines 86-131). -/
def parseOutlineAux : List Heading → List (Nat × String) → List Section
  | [], _ => []
  | h :: rest, stack =>
    let sid := slugify h.title
    let stack2 := popGE h.level stack
    let parent := stack2.head?.map Prod.snd
    ⟨sid, h.title, h.level, parent⟩ :: parseOutlineAux rest ((h.level, sid) :: stack2)

/-- Model of `parse_outline` (outline_parser.py lines 74-133), from the matched
heading list. -/
def parse_outline (hs : List Heading) : List Section := parseOutlineAux hs []

end RW.OutlineParser

namespace RW.PyJson

open RW

/-! ### A model of `json.loads`

Strict single-document JSON parsing with explicit fuel for the nesting
recursion (fuel `length + 1` always suffices for inputs of this repository;
fuel exhaustion reports failure). Unicode `\u` escapes are outside the
model. Numbers are kept as raw token text (no numeric claims depend on
them). `json.loads` raises on trailing non-whitespace ("Extra data"), which
`jsonLoads` models by returning `none`. -/

def lbrace : Char := Char.ofNat 123

def rbrace : Char := Char.ofNat 125

inductive Json where
  | jstr (s : List Char)
  | jnum (raw : List Char)
  | jbool (b : Bool)
  | jnull
  | jarr (xs : List Json)
  | jobj (kvs : List (List Char × Json))

/-- JSON inter-token whitespace: space, tab, newline, carriage return. -/
def jsonWS (c : Char) : Bool :=
  c.toNat = 32 || c.toNat = 9 || c.toNat = 10 || c.toNat = 13

def skipWS : List Char → List Char
  | [] => []
  | c :: cs => if jsonWS c then skipWS cs else c :: cs

/-- Single-character string escapes. -/
def escChar (e : Char) : Option Char :=
  if e = '"' then some '"'
  else if e = '\\' then some '\\'
  else if e = '/' then some '/'
  else if e = 'n' then some '\n'
  else if e = 't' then some '\t'
  else if e = 'r' then some '\r'
  else if e = 'b' then some (Char.ofNat 8)
  else if e = 'f' then some (Char.ofNat 12)
  else none

/-- Parse the body of a string literal after the opening quote. -/
def parseStringBody : List Char → Option (List Char × List Char)
  | [] => none
  | c :: cs =>
    if c = '"' then some ([], cs)
    else if c = '\\' then
      match cs with
      | [] => none
      | e :: cs2 =>
        match escChar e with
        | none => none
        | some d => (parseStringBody cs2).map (fun r => (d :: r.1, r.2))
    else (parseStringBody cs).map (fun r => (c :: r.1, r.2))

def parseExpPart (acc : List Char) (r : List Char) : Option (List Char × List Char) :=
  let s := match r with
    | '+' :: t => (['+'], t)
    | '-' :: t => (['-'], t)
    | t => (([] : List Char), t)
  let ds := s.2.takeWhile isDigitC
  if ds.isEmpty then none else some (acc ++ s.1 ++ ds, s.2.dropWhile isDigitC)

def parseNumTail (acc : List Char) : List Char → Option (List Char × List Char)
  | 'e' :: r => parseExpPart (acc ++ ['e']) r
  | 'E' :: r => parseExpPart (acc ++ ['E']) r
  | r => some (acc, r)

/-- Parse a JSON number token, returned as raw text. -/
def parseNum (l : List Char) : Option (List Char × List Char) :=
  let s := match l with
    | '-' :: r => (['-'], r)
    | r => (([] : List Char), r)
  let ds := s.2.takeWhile isDigitC
  let r1 := s.2.dropWhile isDigitC
  if ds.isEmpty then none
  else
    match r1 with
    | '.' :: r2 =>
      let fs := r2.takeWhile isDigitC
      if fs.isEmpty then none
      else parseNumTail (s.1 ++ ds ++ '.' :: fs) (r2.dropWhile isDigitC)
    | _ => parseNumTail (s.1 ++ ds) r1

mutual

def parseValue : Nat → List Char → Option (Json × List Char)
  | 0, _ => none
  | fuel + 1, l =>
    match skipWS l with
    | [] => none
    | c :: cs =>
      if c = '"' then (parseStringBody cs).map (fun r => (Json.jstr r.1, r.2))
      else if c = lbrace then
        match skipWS cs with
        | d :: ds =>
          if d = rbrace then some (Json.jobj [], ds)
          else (parseMembers fuel (skipWS cs)).map (fun r => (Json.jobj r.1, r.2))
        | [] => none
      else if c = '[' then
        match skipWS cs with
        | d :: ds =>
          if d = ']' then some (Json.jarr [], ds)
          else (parseElems fuel (skipWS cs)).map (fun r => (Json.jarr r.1, r.2))
        | [] => none
      else if List.isPrefixOf ("true".toList) (c :: cs) then
        some (Json.jbool true, (c :: cs).drop 4)
      else if List.isPrefixOf ("false".toList) (c :: cs) then
        some (Json.jbool false, (c :: cs).drop 5)
      else if List.isPrefixOf ("null".toList) (c :: cs) then
        some (Json.jnull, (c :: cs).drop 4)
      else (parseNum (c :: cs)).map (fun r => (Json.jnum r.1, r.2))

def parseMembers : Nat → List Char → Option (List (List Char × Json) × List Char)
  | 0, _ => none
  | fuel + 1, l =>
    match skipWS l with
    | '"' :: cs =>
      match parseStringBody cs with
      | none => none
      | some (k, r1) =>
        match skipWS r1 with
        | ':' :: r2 =>
          match parseValue fuel r2 with
          | none => none
          | some (v, r3) =>
            match skipWS r3 with
            | ',' :: r4 => (parseMembers fuel r4).map (fun m => ((k, v) :: m.1, m.2))
            | d :: r4 =>
              if d = rbrace then some ([(k, v)], r4) else none
            | [] => none
        | _ => none
    | _ => none

def parseElems : Nat → List Char → Option (List Json × List Char)
  | 0, _ => none
  | fuel + 1, l =>
    match parseValue fuel l with
    | none => none
    | some (v, r1) =>
      match skipWS r1 with
      | ',' :: r2 => (parseElems fuel r2).map (fun m => (v :: m.1, m.2))
      | ']' :: r2 => some ([v], r2)
      | _ => none

end

/-- The model of `json.loads`: one document, no trailing data. -/
def jsonLoads (l : List Char) : Option Json :=
  match parseValue (l.length + 1) l with
  | some (v, rest) => if (skipWS rest).isEmpty then some v else none
  | none => none

/-- Python `dict` built from a JSON object's members: last duplicate key
wins, so lookup is on the reversed member list. -/
def objGet (k : List Char) (kvs : List (List Char × Json)) : Option Json :=
  lookupA k kvs.reverse

end RW.PyJson

namespace RW.DataCatalog

open RW RW.PyJson

/-! ### data_catalog.py -/

/-- Model of `ChartMeta` dataclass. The three artifact paths are modelled by their
existence (the only property the core reads from them). -/
structure ChartMeta where
  id : String
  category : String
  title : String
  path_csv : Bool := false
  path_png : Bool := false
  path_json : Bool := false
  dimensions : List String := []
  measures : List String := ["val"]
  units : String := ""
  filter_expression : String := ""
  scenarios : List String := []
deriving DecidableEq

/-- Python `str.title()` on one pass: uppercase an ASCII letter not preceded
by a letter, lowercase the rest. -/
def pyToUpper (c : Char) : Char :=
  if 97 ≤ c.toNat ∧ c.toNat ≤ 122 then Char.ofNat (c.toNat - 32) else c

def pyTitleAux : Bool → List Char → List Char
  | _, [] => []
  | prevAlpha, c :: cs =>
    if isAlphaC c then
      (if prevAlpha then pyToLower c else pyToUpper c) :: pyTitleAux true cs
    else c :: pyTitleAux false cs

/-- Model of `_id_to_title`: underscores to spaces, then `str.title()`. -/
def id_to_title (chart_id : String) : String :=
  ⟨pyTitleAux false ((chart_id.toList).map (fun c => if c.toNat = 95 then ' ' else c))⟩

/-- The separator `"\x7d\n\x7b"` used by `_load_plot_specs`. -/
def specSep : List Char := [rbrace, '\n', lbrace]

/-- Title truthiness and extraction: `spec.get("title", "")` on the decoded
object (only string titles index the mapping in this model). -/
def jsonTitle (j : Json) : List Char :=
  match j with
  | Json.jobj kvs =>
    match objGet ("title".toList) kvs with
    | some (Json.jstr s) => s
    | _ => []
  | _ => []

/-- The enumerated chunk loop of `_load_plot_specs` (data_catalog.py lines
74-89): re-attach the split braces, decode, skip failures, index by
nonempty title with overwrite. -/
def loadSpecsAux (n : Nat) :
    Nat → List (List Char) → List (List Char × Json) → List (List Char × Json)
  | _, [], specs => specs
  | i, part :: rest, specs =>
    let json_str :=
      if i = 0 then part ++ [rbrace]
      else if i = n - 1 then lbrace :: part
      else lbrace :: (part ++ [rbrace])
    let specs2 :=
      match jsonLoads json_str with
      | some spec =>
        let title := jsonTitle spec
        if title.isEmpty then specs else insertOverwrite title spec specs
      | none => specs
    loadSpecsAux n (i + 1) rest specs2

/-- Model of `_load_plot_specs` (data_catalog.py lines 64-91) applied to the raw file
content: split on the literal `"\x7d\n\x7b"`, re-attach braces, decode each
chunk, skip undecodable chunks. -/
def load_plot_specs (content : List Char) : List (List Char × Json) :=
  let parts := splitOnSub specSep content
  loadSpecsAux parts.length 0 parts []

/-- Model of `_normalize_title`: lowercase and strip all non-`[a-z0-9]`. -/
def normalize_title (l : List Char) : List Char :=
  (pyLower l).filter (fun c => (97 ≤ c.toNat && c.toNat ≤ 122) || isDigitC c)

/-- Model of `_find_spec_for_chart`: first spec whose normalized title equals the
normalized id-as-title. -/
def find_spec_for_chart (plot_specs : List (List Char × Json)) (chart_id : String) :
    Option Json :=
  let ctn := pyLower ((chart_id.toList).map (fun c => if c.toNat = 95 then ' ' else c))
  (plot_specs.find? (fun p => normalize_title p.1 = normalize_title ctn)).map Prod.snd

/-- Model of `spec.get(key, default)` for string-valued fields. -/
def jGetStr (j : Json) (k : List Char) (dflt : List Char) : List Char :=
  match j with
  | Json.jobj kvs =>
    match objGet k kvs with
    | some (Json.jstr s) => s
    | _ => dflt
  | _ => dflt

/-- Model of `spec.get("groupby", [])` as a list of strings. -/
def jGetStrList (j : Json) (k : List Char) : List (List Char) :=
  match j with
  | Json.jobj kvs =>
    match objGet k kvs with
    | some (Json.jarr xs) =>
      xs.filterMap (fun x =>
        match x with
        | Json.jstr s => some s
        | _ => none)
    | _ => []
  | _ => []

/-- A directory entry of a category folder: file stem and suffix. -/
structure FSFile where
  stem : String
  suffix : String
deriving DecidableEq

/-- A category folder: its name and contained files. -/
structure FSDir where
  name : String
  files : List FSFile
deriving DecidableEq

def chartExts : List String := [".csv", ".png", ".json"]

def startsWithDot (s : String) : Bool :=
  match s.toList with
  | c :: _ => c = '.'
  | [] => false

def strLeB (a b : String) : Bool := !(strLt b a)

/-- Python `sorted` on strings (ascending code-point lexicographic; the
insertion sort is stable, as Python's sort is). -/
def sortStrings (l : List String) : List String :=
  List.insertionSort (fun a b => strLeB a b = true) l

/-- Build the `ChartMeta` for one id in one category folder (data_catalog.py
lines 115-141). -/
def mkChart (plot_specs : List (List Char × Json)) (dir : FSDir) (chart_id : String) :
    ChartMeta :=
  let spec := find_spec_for_chart plot_specs chart_id
  let title :=
    match spec with
    | some sp => String.mk (jGetStr sp ("title".toList) ((id_to_title chart_id).toList))
    | none => id_to_title chart_id
  let groupby :=
    match spec with
    | some sp => jGetStrList sp ("groupby".toList)
    | none => []
  let dims :=
    (groupby.filter (fun col =>
      col ≠ ("scen".toList) ∧ col ≠ ("year".toList) ∧ col ≠ ("unit".toList))).map String.mk
  let si_unit :=
    match spec with
    | some sp => String.mk (jGetStr sp ("si_unit".toList) [])
    | none => ""
  let filter_expr :=
    match spec with
    | some sp => String.mk (jGetStr sp ("filter".toList) [])
    | none => ""
  { id := chart_id,
    category := dir.name,
    title := title,
    path_csv := dir.files.any (fun f => f.stem = chart_id ∧ f.suffix = ".csv"),
    path_png := dir.files.any (fun f => f.stem = chart_id ∧ f.suffix = ".png"),
    path_json := dir.files.any (fun f => f.stem = chart_id ∧ f.suffix = ".json"),
    dimensions := dims,
    measures := ["val"],
    units := si_unit,
    filter_expression := filter_expr,
    scenarios := [] }

/-- Model of `_scan_category` (data_catalog.py lines 106-141): collect the set of
stems with a chart extension, then register each in sorted order into the
id-keyed chart dict. -/
def scan_category (plot_specs : List (List Char × Json)) (dir : FSDir)
    (charts : List (List Char × ChartMeta)) : List (List Char × ChartMeta) :=
  let ids :=
    (dir.files.filterMap (fun f => if f.suffix ∈ chartExts then some f.stem else none)).dedup
  (sortStrings ids).foldl
    (fun acc cid => insertOverwrite cid.toList (mkChart plot_specs dir cid) acc)
    charts

/-- Model of `_scan_charts` (data_catalog.py lines 93-104): non-dot category folders
in sorted name order, each scanned into the shared chart dict. -/
def scan_charts (plot_specs : List (List Char × Json)) (dirs : List FSDir) :
    List (List Char × ChartMeta) :=
  (List.insertionSort (fun a b => strLeB a.name b.name = true)
      (dirs.filter (fun d => !(startsWithDot d.name)))).foldl
    (fun acc d => scan_category plot_specs d acc)
    []

/-- Model of `get_chart` (data_catalog.py lines 169-171). -/
def get_chart (charts : List (List Char × ChartMeta)) (chart_id : String) :
    Option ChartMeta :=
  lookupA chart_id.toList charts

def catIdLtB (a b : ChartMeta) : Bool :=
  strLt a.category b.category || (a.category = b.category && strLt a.id b.id)

/-- Model of `list_charts` (data_catalog.py lines 162-167): values of the chart dict,
optionally filtered by category, sorted by `(category, id)`. -/
def list_charts (charts : List (List Char × ChartMeta)) (category : Option String) :
    List ChartMeta :=
  let cs := charts.map Prod.snd
  let cs2 :=
    match category with
    | some c => cs.filter (fun m => m.category = c)
    | none => cs
  List.insertionSort (fun a b => !(catIdLtB b a) = true) cs2

end RW.DataCatalog

namespace RW.ChartReader

open RW

/-! ### chart_reader.py

The relative-shape frames (`val` column present) that
`_compute_scenario_summary` and `_add_emissions_insights` analyse are
modelled as row lists: first column a string dimension, then the `scen`
and `val` columns. Values are `ℚ` (exact decimals). The time-series branch
(digit-named year columns, no `val`) operates on a different frame shape
and is not needed by the claims. -/

/-- One row of a relative-shape chart CSV. `dim` is the first column. -/
structure Row where
  dim : String
  scen : String
  val : ℚ
deriving DecidableEq

/-- Pandas `.str.contains("Net", case=False)` on one cell. -/
def containsNetB (s : String) : Bool :=
  containsSubstr ("net".toList) (pyLower s.toList)

/-- Model of `_extract_scenarios`: sorted unique `scen` values. -/
def extract_scenarios (df : List Row) : List String :=
  RW.DataCatalog.sortStrings (df.map (fun r => r.scen)).dedup

/-- Minimum of a value list (Python `min`; only evaluated on nonempty
lists along the mirrored control flow). -/
def listMinQ : List ℚ → ℚ
  | [] => 0
  | h :: t => t.foldl min h

/-- Python `round(x, 2)` modelled on exact decimals: scale by 100, round
half to even, unscale. -/
def pyRound2 (q : ℚ) : ℚ :=
  let x := q * 100
  let f : ℤ := Rat.floor x
  let r := x - f
  let n : ℤ :=
    if r < 1 / 2 then f
    else if 1 / 2 < r then f + 1
    else if f % 2 = 0 then f else f + 1
  (n : ℚ) / 100

/-- Stable ascending sort by `val` (pandas `sort_values("val")`; tie order
is not observable by any claim). -/
def sortByVal (rows : List Row) : List Row :=
  List.insertionSort (fun a b => decide (a.val ≤ b.val) = true) rows

/-- Per-scenario statistics of the relative-shape branch. -/
structure ScenSummary where
  baseline : Option ℚ := none
  total_reduction : Option ℚ := none
  top_reductions : List (String × ℚ) := []
  notable_increases : List (String × ℚ) := []
deriving DecidableEq

/-- Model of `_compute_scenario_summary` (chart_reader.py lines 166-216), `val`
branch: the baseline is the first row of this scenario whose first-column
value contains "Net" case-insensitively; `total_reduction` sums the other
rows; most-negative three and all positive rows are listed. -/
def compute_scenario_summary (df : List Row) (scenario : String) : ScenSummary :=
  let scen_df := df.filter (fun r => r.scen = scenario)
  let baseline_row := scen_df.filter (fun r => containsNetB r.dim)
  let base : Option ℚ :=
    match baseline_row with
    | [] => none
    | r :: _ => some r.val
  let non_baseline := scen_df.filter (fun r => !(containsNetB r.dim))
  if non_baseline.isEmpty then { baseline := base }
  else
    let sorted_df := sortByVal non_baseline
    { baseline := base,
      total_reduction := some (pyRound2 ((non_baseline.map (fun r => r.val)).sum)),
      top_reductions :=
        ((sorted_df.filter (fun r => r.val < 0)).take 3).map
          (fun r => (r.dim, pyRound2 r.val)),
      notable_increases :=
        (sorted_df.filter (fun r => 0 < r.val)).map
          (fun r => (r.dim, pyRound2 r.val)) }

/-- One generated insight sentence, by its format string and arguments
(the f-string decimal formatting is display-only). -/
inductive Insight where
  | baselineEmissions (b : ℚ)
  | largestReduction (sector : String) (avg : ℚ)
  | deepestCuts (scen : String) (total : ℚ)
  | netIncrease (scen : String) (sector : String) (v : ℚ)
deriving DecidableEq

/-- Global non-baseline rows of the frame. -/
def nonBaselineRows (df : List Row) : List Row :=
  df.filter (fun r => !(containsNetB r.dim))

/-- Model of `min(df[nonbaseline].groupby("scen")["val"].sum())` of
`_add_emissions_insights`. -/
def globalMinScenTotal (df : List Row) : ℚ :=
  let nb := nonBaselineRows df
  let scens := RW.DataCatalog.sortStrings (nb.map (fun r => r.scen)).dedup
  listMinQ (scens.map (fun s => ((nb.filter (fun r => r.scen = s)).map (fun r => r.val)).sum))

/-- Sum of a scenario's non-baseline `val`s. -/
def scenTotal (df : List Row) (scen : String) : ℚ :=
  (((df.filter (fun r => r.scen = scen)).filter
      (fun r => !(containsNetB r.dim))).map (fun r => r.val)).sum

/-- The body of the per-scenario loop of `_add_emissions_insights`
(chart_reader.py lines 253-271). -/
def scenInsights (df : List Row) (scenarios : List String) (scen : String) :
    List Insight :=
  let scen_df := df.filter (fun r => r.scen = scen)
  let non_baseline_scen := scen_df.filter (fun r => !(containsNetB r.dim))
  if non_baseline_scen.isEmpty then []
  else
    let total := (non_baseline_scen.map (fun r => r.val)).sum
    let deep :=
      if (scenarios.head? = some scen ∨ total = globalMinScenTotal df) ∧ total < 0 then
        [Insight.deepestCuts scen total]
      else []
    let incs :=
      (non_baseline_scen.filter (fun r => 0 < r.val)).map
        (fun r => Insight.netIncrease scen r.dim r.val)
    deep ++ incs

/-- Sorted unique first-column values of the non-baseline rows (pandas
`groupby` sorts its keys). -/
def sectorKeys (df : List Row) : List String :=
  RW.DataCatalog.sortStrings ((nonBaselineRows df).map (fun r => r.dim)).dedup

/-- Mean `val` of one sector's non-baseline rows. -/
def sectorMean (df : List Row) (d : String) : ℚ :=
  let vs := ((nonBaselineRows df).filter (fun r => r.dim = d)).map (fun r => r.val)
  vs.sum / vs.length

/-- Model of `_add_emissions_insights` (chart_reader.py lines 232-271), the `val`
branch of `_generate_insights`: baseline sentence, largest-reduction
sentence (pandas `idxmin` takes the first minimal key in sorted key
order), then the per-scenario loop over the sorted unique scenarios. -/
def add_emissions_insights (df : List Row) : List Insight :=
  let baseline_rows := df.filter (fun r => containsNetB r.dim)
  let part1 :=
    match baseline_rows with
    | [] => []
    | r :: _ => [Insight.baselineEmissions r.val]
  let non_baseline := nonBaselineRows df
  let part2 :=
    if non_baseline.isEmpty then []
    else
      let means := (sectorKeys df).map (fun d => (d, sectorMean df d))
      let minv := listMinQ (means.map Prod.snd)
      match means.find? (fun p => p.2 = minv) with
      | some p => [Insight.largestReduction p.1 |minv|]
      | none => []
  let scenarios := extract_scenarios df
  part1 ++ part2 ++ scenarios.flatMap (scenInsights df scenarios)

end RW.ChartReader

namespace RW.SectionMapper

open RW RW.DataCatalog

/-! ### section_mapper.py

`_resolve_configured_charts` is embedded with its three catalog-dependent
collaborators as parameters: `lookupChart` models `_lookup_chart`,
`matchPattern` models `_match_pattern` (glob matching against the catalog),
and `autos` models the auto-matcher result used by `auto` selectors. The
resolver's own logic (order, dedup by "category/id", section cap, selector
caps) is translated line by line; the dedup/cap claims are proved for every
instantiation of the collaborators. -/

/-- Model of `ChartSelector` dataclass. -/
structure ChartSelector where
  id : Option String := none
  pattern : Option String := none
  auto : Bool := false
  max : Option Int := none
  sort : String := "id"
deriving DecidableEq

/-- Model of `SectionMapping` dataclass. -/
structure SectionMapping where
  selectors : List ChartSelector := []
  description : String := ""
  max_charts : Option Int := none
deriving DecidableEq

/-- The dedup key `f"{chart.category}/{chart.id}"`. -/
def fullId (c : ChartMeta) : List Char :=
  c.category.toList ++ '/' :: c.id.toList

/-- Python truthiness of an optional string (`if sel.id:`). -/
def optStrTruthy : Option String → Bool
  | none => false
  | some s => !(s.toList.isEmpty)

/-- Python truthiness test `mapping.max_charts and len(result) >=
mapping.max_charts` (`0` and `None` are falsy). -/
def atCap (mc : Option Int) (len : Nat) : Bool :=
  match mc with
  | none => false
  | some m => m ≠ 0 && (m ≤ (len : Int))

/-- Model of `sel.max is not None and count >= sel.max` (no truthiness here). -/
def selMaxReached (sm : Option Int) (count : Nat) : Bool :=
  match sm with
  | none => false
  | some m => m ≤ (count : Int)

/-- The shared `result` list and `seen` set of
`_resolve_configured_charts`. -/
structure ResolveState where
  result : List ChartMeta
  seen : List (List Char)

/-- The inner `add_chart` closure (section_mapper.py lines 176-185). -/
def add_chart (mc : Option Int) (st : ResolveState) (chart : ChartMeta) :
    ResolveState × Bool :=
  let fid := fullId chart
  if fid ∈ st.seen then (st, false)
  else if atCap mc st.result.length then (st, false)
  else (⟨st.result ++ [chart], fid :: st.seen⟩, true)

def sortByTitle (ms : List ChartMeta) : List ChartMeta :=
  List.insertionSort (fun a b => (!(strLt b.title a.title)) = true) ms

def sortByCatId (ms : List ChartMeta) : List ChartMeta :=
  List.insertionSort (fun a b => (!(catIdLtB b a)) = true) ms

/-- The match-adding loop of a `pattern` selector (lines 205-210). -/
def addPatternLoop (mc : Option Int) (selMax : Option Int) :
    List ChartMeta → Nat → ResolveState → ResolveState
  | [], _, st => st
  | c :: cs, count, st =>
    if selMaxReached selMax count then st
    else
      let r := add_chart mc st c
      addPatternLoop mc selMax cs (if r.2 then count + 1 else count) r.1

/-- The auto-adding loop of an `auto` selector (lines 218-225), with its
extra section-cap break. -/
def addAutoLoop (mc : Option Int) (selMax : Option Int) :
    List ChartMeta → Nat → ResolveState → ResolveState
  | [], _, st => st
  | c :: cs, count, st =>
    if atCap mc st.result.length then st
    else if selMaxReached selMax count then st
    else
      let r := add_chart mc st c
      addAutoLoop mc selMax cs (if r.2 then count + 1 else count) r.1

/-- The selector loop of `_resolve_configured_charts` (lines 187-226). -/
def resolveAux (mc : Option Int) (lookupChart : String → Option ChartMeta)
    (matchPattern : String → List ChartMeta) (autos : List ChartMeta) :
    List ChartSelector → ResolveState → ResolveState
  | [], st => st
  | sel :: rest, st =>
    if atCap mc st.result.length then st
    else
      let st2 :=
        if optStrTruthy sel.id then
          match lookupChart (sel.id.getD "") with
          | some chart => (add_chart mc st chart).1
          | none => st
        else if optStrTruthy sel.pattern then
          let ms := matchPattern (sel.pattern.getD "")
          let ms2 := if sel.sort = "title" then sortByTitle ms else sortByCatId ms
          addPatternLoop mc sel.max ms2 0 st
        else if sel.auto then addAutoLoop mc sel.max autos 0 st
        else st
      resolveAux mc lookupChart matchPattern autos rest st2

/-- Model of `_resolve_configured_charts` (section_mapper.py lines 158-227). -/
def resolve_configured_charts (mapping : SectionMapping)
    (lookupChart : String → Option ChartMeta)
    (matchPattern : String → List ChartMeta) (autos : List ChartMeta) :
    List ChartMeta :=
  (resolveAux mapping.max_charts lookupChart matchPattern autos
    mapping.selectors ⟨[], []⟩).result

/-- Model of `CATEGORY_ALIASES` (section_mapper.py lines 27-37). -/
def CATEGORY_ALIASES : List (String × List String) :=
  [("emissions", ["emissions"]),
   ("electricity-generation", ["electricity"]),
   ("electricity", ["electricity"]),
   ("transport", ["transport"]),
   ("residential", ["built_environment"]),
   ("commercial", ["built_environment"]),
   ("agriculture", ["agriculture"]),
   ("industry", ["industry", "manufacturing"]),
   ("manufacturing", ["manufacturing", "industry"])]

/-- Model of `_get_category_matches` (lines 293-302); the Python set is modelled as
a list up to membership. -/
def get_category_matches (section_id : String) : List String :=
  let sid := pyLower section_id.toList
  CATEGORY_ALIASES.foldl
    (fun acc p =>
      if containsSubstr (p.1.toList) sid || containsSubstr sid (p.1.toList) then
        acc ++ p.2
      else acc)
    []

/-- Model of `_score_chart` (lines 304-335). Every contribution is a whole number
(`3.0`, `2.0`, `1.0` per keyword), so the float score is modelled as `Nat`. -/
def score_chart (chart : ChartMeta) (keywords : List (List Char))
    (section_id : String) (category_matches : List String) : Nat :=
  let s1 : Nat := if chart.category ∈ category_matches then 3 else 0
  let sidParts := pySplitWS ((pyLower section_id.toList).map
    (fun c => if c = '-' then ' ' else c))
  let s2 : Nat := if pyLower chart.category.toList ∈ sidParts then 2 else 0
  let titleWords := pySplitWS ((pyLower chart.title.toList).map
    (fun c => if isWordChar c || pyIsSpaceC c then c else ' '))
  let overlap := ((keywords.dedup).filter (fun k => k ∈ titleWords)).length
  let sidU := (pyLower section_id.toList).map (fun c => if c = '-' then '_' else c)
  let cid := pyLower chart.id.toList
  let s4 : Nat :=
    if containsSubstr sidU cid then 2
    else if (splitOnCharL '_' sidU).any
        (fun part => decide (part.length > 3) && containsSubstr part cid) then 1
    else 0
  s1 + s2 + overlap + s4

/-- The sort key `lambda x: (-x[0], x[1].id)` as a strict order. -/
def scKeyLtB (a b : Nat × ChartMeta) : Bool :=
  b.1 < a.1 || (a.1 = b.1 && strLt a.2.id b.2.id)

/-- Model of `_find_matching_charts` (lines 276-291): keep positive scores, sort by
score descending / id ascending, take the first five. -/
def find_matching_charts (keywords : List (List Char)) (section_id : String)
    (all_charts : List ChartMeta) : List ChartMeta :=
  let cm := get_category_matches section_id
  let scored := all_charts.filterMap (fun c =>
    let score := score_chart c keywords section_id cm
    if 0 < score then some (score, c) else none)
  let sorted := List.insertionSort (fun a b => (!(scKeyLtB b a)) = true) scored
  (sorted.take 5).map Prod.snd

/-- Model of `_extract_keywords_from_id` (lines 271-274). -/
def extract_keywords_from_id (section_id : String) : List (List Char) :=
  (pySplitWS ((pyLower section_id.toList).map
    (fun c => if c = '-' || c.toNat = 95 then ' ' else c))).filter
    (fun w => w.length > 2)

/-- Model of `_auto_map_section` (lines 260-263): pure auto-matching from the id. -/
def auto_map_section (all_charts : List ChartMeta) (section_id : String) :
    List ChartMeta :=
  find_matching_charts (extract_keywords_from_id section_id) section_id all_charts

end RW.SectionMapper

/-! ### Fixtures and auxiliary definitions used by the theorems below -/

namespace RW

/-- The characters that can appear in a finished slug: ASCII lowercase
letters, digits and the hyphen. -/
def slugOKb (c : Char) : Bool :=
  (97 ≤ c.toNat && c.toNat ≤ 122) || (48 ≤ c.toNat && c.toNat ≤ 57) ||
  c.toNat = 45

end RW

namespace RW.OutlineParser

/-- The successfully parsed `key=value` pairs of a `RATING:` line, in
order. -/
def parsedPairs (part : List Char) : List (List Char × Int) :=
  (splitOnCharL ',' part).filterMap parsePair

end RW.OutlineParser

namespace RW.DataCatalog

open RW RW.PyJson

/-- The two-object fixture of C4: `"\x7b\"title\":\"A\"\x7d"`, a newline,
then the same with `"B"`. -/
def specObjA : List Char := lbrace :: ("\"title\":\"A\"".toList ++ [rbrace])

def specObjB : List Char := lbrace :: ("\"title\":\"B\"".toList ++ [rbrace])

def specFixtureAB : List Char := specObjA ++ '\n' :: specObjB

end RW.DataCatalog

namespace RW.DataCatalog

open RW RW.PyJson

/-- A category folder holds a chart file for `id`: some file with a chart
extension has that stem. -/
def hasChartFile (d : FSDir) (id : String) : Bool :=
  d.files.any (fun f => decide (f.suffix ∈ chartExts) && decide (f.stem = id))

/-- Two category folders both holding a chart file with stem `"x"`. -/
def exDirA : FSDir := { name := "alpha", files := [{ stem := "x", suffix := ".csv" }] }

def exDirB : FSDir := { name := "beta", files := [{ stem := "x", suffix := ".png" }] }

end RW.DataCatalog

namespace RW.ChartReader

/-- A one-row frame: a single scenario `"A"` whose non-baseline total is
positive. -/
def exC2 : List Row := [{ dim := "Transport", scen := "A", val := 5 }]

/-- The same frame with a negative value. -/
def exC2W : List Row := [{ dim := "Transport", scen := "A", val := -3 }]

end RW.ChartReader

namespace RW.SectionMapper

open RW RW.DataCatalog

/-- Invariant of the shared resolver state: the emitted charts have
pairwise-distinct `"category/id"` keys, every emitted key has been
recorded in `seen`, and a positive section cap bounds the length. -/
def StOK (mc : Option Int) (st : ResolveState) : Prop :=
  (st.result.map fullId).Nodup
  ∧ (∀ x ∈ st.result.map fullId, x ∈ st.seen)
  ∧ (∀ m : Int, mc = some m → 0 < m → (st.result.length : Int) ≤ m)

/-- A mapping whose `max_charts` is the falsy `0`, with one resolvable
explicit selector. -/
def cexMapping : SectionMapping :=
  { selectors := [{ id := some "x" }], max_charts := some 0 }

def cexChart : ChartMeta := { id := "x", category := "emissions", title := "X" }

def cexLookup : String → Option ChartMeta :=
  fun s => if s = ("x" : String) then some cexChart else none

/-- A positive cap with a duplicate explicit selector, for the witness. -/
def wMapping : SectionMapping :=
  { selectors := [{ id := some "x" }, { id := some "x" }], max_charts := some 1 }

end RW.SectionMapper

namespace RW

/-! ### Order lemmas for the code-point lexicographic order -/

theorem charToNat_inj {c d : Char} (h : c.toNat = d.toNat) : c = d :=
  Char.eq_of_val_eq (UInt32.ext h)

theorem lexLt_irrefl : ∀ l : List Char, lexLt l l = false
  | [] => rfl
  | c :: cs => by
    simp only [lexLt, Nat.lt_irrefl, if_false]
    exact lexLt_irrefl cs

theorem lexLt_asymm : ∀ {a b : List Char}, lexLt a b = true → lexLt b a = false
  | [], [], h => by simp [lexLt] at h
  | [], _ :: _, _ => by simp [lexLt]
  | _ :: _, [], h => by simp [lexLt] at h
  | a :: as, b :: bs, h => by
    simp only [lexLt] at h ⊢
    rcases Nat.lt_trichotomy a.toNat b.toNat with h1 | h1 | h1
    · rw [if_neg (by omega), if_pos h1]
    · rw [if_neg (by omega), if_neg (by omega)]
      rw [if_neg (by omega), if_neg (by omega)] at h
      exact lexLt_asymm h
    · rw [if_neg (by omega), if_pos h1] at h
      exact absurd h (by simp)

theorem lexLt_trans :
    ∀ {a b c : List Char}, lexLt a b = true → lexLt b c = true → lexLt a c = true
  | [], _, [], _, h2 => by cases ‹List Char› <;> simp [lexLt] at h2 ⊢
  | [], _, _ :: _, _, _ => by simp [lexLt]
  | _ :: _, [], _, h1, _ => by simp [lexLt] at h1
  | _ :: _, _ :: _, [], _, h2 => by simp [lexLt] at h2
  | a :: as, b :: bs, c :: cs, h1, h2 => by
    simp only [lexLt] at h1 h2 ⊢
    rcases Nat.lt_trichotomy a.toNat b.toNat with g1 | g1 | g1 <;>
      rcases Nat.lt_trichotomy b.toNat c.toNat with g2 | g2 | g2
    all_goals first
      | (rw [if_pos (by omega)])
      | (rw [if_pos g2] at h2; rw [if_pos (by omega)])
      | skip
    · rw [if_neg (by omega), if_pos (by omega)] at h2
      exact absurd h2 (by simp)
    · rw [if_neg (by omega), if_neg (by omega)]
      rw [if_neg (by omega), if_neg (by omega)] at h1 h2
      exact lexLt_trans h1 h2
    · rw [if_neg (by omega), if_pos (by omega)] at h2
      exact absurd h2 (by simp)
    · rw [if_neg (by omega), if_pos (by omega)] at h1
      exact absurd h1 (by simp)
    · rw [if_neg (by omega), if_pos (by omega)] at h1
      exact absurd h1 (by simp)
    · rw [if_neg (by omega), if_pos (by omega)] at h1
      exact absurd h1 (by simp)

theorem lexLt_connex :
    ∀ {a b : List Char}, lexLt a b = false → lexLt b a = false → a = b
  | [], [], _, _ => rfl
  | [], _ :: _, h1, _ => by simp [lexLt] at h1
  | _ :: _, [], _, h2 => by simp [lexLt] at h2
  | a :: as, b :: bs, h1, h2 => by
    simp only [lexLt] at h1 h2
    rcases Nat.lt_trichotomy a.toNat b.toNat with g | g | g
    · rw [if_pos g] at h1
      exact absurd h1 (by simp)
    · rw [if_neg (by omega), if_neg (by omega)] at h1 h2
      rw [charToNat_inj g, lexLt_connex h1 h2]
    · rw [if_pos g] at h2
      exact absurd h2 (by simp)

theorem strToList_inj {s t : String} (h : s.toList = t.toList) : s = t := by
  cases s
  cases t
  exact congrArg String.mk (by simpa [String.toList] using h)

theorem strLt_asymm {a b : String} (h : strLt a b = true) : strLt b a = false :=
  lexLt_asymm h

theorem strLt_connex {a b : String} (h1 : strLt a b = false)
    (h2 : strLt b a = false) : a = b :=
  strToList_inj (lexLt_connex h1 h2)

theorem strLt_negtrans {a b c : String} (h1 : strLt b a = false)
    (h2 : strLt c b = false) : strLt c a = false := by
  by_cases gab : strLt a b = true
  · by_cases g : strLt c a = true
    · have hx : strLt c b = true := lexLt_trans g gab
      exact absurd hx (by simp [h2])
    · simpa using g
  · have hab : a = b := strLt_connex (by simpa using gab) h1
    subst hab
    exact h2

/-! ### Generic stable-sort facts for Boolean strict orders -/

theorem sorted_pairwise_of_insertionSort {α : Type} (ltB : α → α → Bool)
    (hasym : ∀ a b, ltB a b = true → ltB b a = false)
    (hnegtrans : ∀ a b c, ltB b a = false → ltB c b = false → ltB c a = false)
    (l : List α) :
    (List.insertionSort (fun a b => (!(ltB b a)) = true) l).Pairwise
      (fun a b => ltB b a = false) := by
  haveI ht : IsTotal α (fun a b => (!(ltB b a)) = true) := by
    constructor
    intro a b
    by_cases h : ltB b a = true
    · right
      simp [hasym _ _ h]
    · left
      simp [Bool.not_eq_true] at h
      simp [h]
  haveI htr : IsTrans α (fun a b => (!(ltB b a)) = true) := by
    constructor
    intro a b c h1 h2
    simp only [Bool.not_eq_true'] at h1 h2 ⊢
    exact hnegtrans _ _ _ h1 h2
  have hs := List.sorted_insertionSort (fun a b => (!(ltB b a)) = true) l
  refine hs.imp ?_
  intro a b h
  simpa using h

/-! ### Association-list lemmas -/

theorem lookupA_insertOverwrite {β : Type} (k k2 : List Char) (v : β) (l : List (List Char × β)) :
    lookupA k (insertOverwrite k2 v l) = if k2 = k then some v else lookupA k l := by
  induction l with
  | nil => by_cases h : k2 = k <;> simp [insertOverwrite, lookupA, h]
  | cons q t ih =>
    obtain ⟨k3, v3⟩ := q
    by_cases h3 : k3 = k2
    · subst h3
      by_cases h : k3 = k <;> simp [insertOverwrite, lookupA, h]
    · simp only [insertOverwrite, if_neg h3, lookupA]
      by_cases h : k3 = k
      · subst h
        have hne : (k2 = k3) = False := eq_false (fun g => h3 g.symm)
        simp [lookupA, hne]
      · rw [ih]
        by_cases h2 : k2 = k <;> simp [h, h2, lookupA]

theorem insertOverwrite_mem_cases {β : Type} (k : List Char) (v : β)
    (l : List (List Char × β)) (p : List Char × β) :
    p ∈ insertOverwrite k v l → p ∈ l ∨ p = (k, v) := by
  induction l with
  | nil =>
    intro h
    simp [insertOverwrite] at h
    exact Or.inr h
  | cons q t ih =>
    obtain ⟨k2, v2⟩ := q
    intro h
    by_cases hk : k2 = k
    · subst hk
      simp only [insertOverwrite, if_pos rfl] at h
      rcases List.mem_cons.mp h with h2 | h2
      · exact Or.inr h2
      · exact Or.inl (List.mem_cons_of_mem _ h2)
    · simp only [insertOverwrite, if_neg hk] at h
      rcases List.mem_cons.mp h with h2 | h2
      · exact Or.inl (by simp [h2])
      · rcases ih h2 with h3 | h3
        · exact Or.inl (List.mem_cons_of_mem _ h3)
        · exact Or.inr h3

theorem keys_nodup_insertOverwrite {β : Type} (k : List Char) (v : β)
    (l : List (List Char × β)) (h : (l.map Prod.fst).Nodup) :
    ((insertOverwrite k v l).map Prod.fst).Nodup := by
  induction l with
  | nil => simp [insertOverwrite]
  | cons q t ih =>
    obtain ⟨k2, v2⟩ := q
    simp only [List.map_cons, List.nodup_cons] at h
    by_cases hk : k2 = k
    · subst hk
      have he : insertOverwrite k2 v ((k2, v2) :: t) = (k2, v) :: t := by
        simp [insertOverwrite]
      rw [he]
      simp only [List.map_cons, List.nodup_cons]
      exact ⟨h.1, h.2⟩
    · simp only [insertOverwrite, if_neg hk, List.map_cons, List.nodup_cons]
      refine ⟨?_, ih h.2⟩
      intro hmem
      rcases List.mem_map.mp hmem with ⟨p, hp, hfst⟩
      rcases insertOverwrite_mem_cases k v t p hp with hcase | hcase
      · exact h.1 (hfst ▸ List.mem_map_of_mem Prod.fst hcase)
      · exact hk ((hfst.symm).trans (by rw [hcase]))

end RW

namespace RW

/-! ### Character-level lemmas for `slugify` -/

theorem charOfNat_toNat {n : Nat} (h1 : 97 ≤ n) (h2 : n ≤ 122) :
    (Char.ofNat n).toNat = n := by
  interval_cases n <;> decide

theorem pyToLower_toNat (c : Char) :
    (pyToLower c).toNat =
      if 65 ≤ c.toNat ∧ c.toNat ≤ 90 then c.toNat + 32 else c.toNat := by
  unfold pyToLower
  by_cases h : 65 ≤ c.toNat ∧ c.toNat ≤ 90
  · rw [if_pos h, if_pos h]
    exact charOfNat_toNat (by omega) (by omega)
  · rw [if_neg h, if_neg h]

theorem pyToLower_not_upper (c : Char) :
    ¬(65 ≤ (pyToLower c).toNat ∧ (pyToLower c).toNat ≤ 90) := by
  rw [pyToLower_toNat]
  by_cases h : 65 ≤ c.toNat ∧ c.toNat ≤ 90
  · rw [if_pos h]
    omega
  · rw [if_neg h]
    omega

theorem pyToLower_fix_of_not_upper {c : Char}
    (h : ¬(65 ≤ c.toNat ∧ c.toNat ≤ 90)) : pyToLower c = c := by
  unfold pyToLower
  rw [if_neg h]

theorem pyToLower_idem (c : Char) : pyToLower (pyToLower c) = pyToLower c :=
  pyToLower_fix_of_not_upper (pyToLower_not_upper c)

theorem char_eq_hyphen_iff (c : Char) : c = '-' ↔ c.toNat = 45 := by
  constructor
  · intro h
    subst h
    rfl
  · intro h
    exact charToNat_inj (by simpa using h)

theorem slugOKb_toLower_fix {c : Char} (h : slugOKb c = true) : pyToLower c = c := by
  apply pyToLower_fix_of_not_upper
  simp [slugOKb] at h
  omega

theorem slugOKb_not_space {c : Char} (h : slugOKb c = true) : pyIsSpaceC c = false := by
  simp [slugOKb] at h
  simp [pyIsSpaceC]
  omega

theorem slugOKb_filter_keep {c : Char} (h : slugOKb c = true) :
    (isWordChar c || pyIsSpaceC c || decide (c = '-')) = true := by
  simp [slugOKb] at h
  simp [isWordChar, isAlphaC, isDigitC, pyIsSpaceC, char_eq_hyphen_iff]
  omega

theorem slugOKb_not_runs1 {c : Char} (h : slugOKb c = true) :
    (pyIsSpaceC c || decide (c.toNat = 95)) = false := by
  simp [slugOKb] at h
  simp [pyIsSpaceC]
  omega

/-! ### Membership through the `slugify` stages -/

theorem mem_dropWhile_subset {p : Char → Bool} {l : List Char} {c : Char}
    (h : c ∈ l.dropWhile p) : c ∈ l := by
  induction l with
  | nil => simp [List.dropWhile] at h
  | cons d t ih =>
    by_cases hd : p d
    · exact List.mem_cons_of_mem _ (ih (by simpa [List.dropWhile, hd] using h))
    · simpa [List.dropWhile, hd] using h

theorem mem_pyStripP_subset {p : Char → Bool} {l : List Char} {c : Char}
    (h : c ∈ pyStripP p l) : c ∈ l := by
  unfold pyStripP dropWhileEnd at h
  have h1 : c ∈ List.dropWhile p (List.dropWhile p l).reverse := List.mem_reverse.mp h
  have h2 : c ∈ (List.dropWhile p l).reverse := mem_dropWhile_subset h1
  exact mem_dropWhile_subset (List.mem_reverse.mp h2)

theorem mem_replaceRunsAux {p : Char → Bool} {r : Char} :
    ∀ {b : Bool} {l : List Char} {c : Char}, c ∈ replaceRunsAux p r b l →
      c = r ∨ (c ∈ l ∧ p c = false)
  | _, [], c, h => by simp [replaceRunsAux] at h
  | b, d :: t, c, h => by
    by_cases hd : p d
    · cases b with
      | true =>
        rcases mem_replaceRunsAux (by simpa [replaceRunsAux, hd] using h) with h2 | h2
        · exact Or.inl h2
        · exact Or.inr ⟨List.mem_cons_of_mem _ h2.1, h2.2⟩
      | false =>
        rcases (by simpa [replaceRunsAux, hd] using h : c = r ∨ c ∈ replaceRunsAux p r true t)
          with h2 | h2
        · exact Or.inl h2
        · rcases mem_replaceRunsAux h2 with h3 | h3
          · exact Or.inl h3
          · exact Or.inr ⟨List.mem_cons_of_mem _ h3.1, h3.2⟩
    · rcases (by simpa [replaceRunsAux, hd] using h : c = d ∨ c ∈ replaceRunsAux p r false t)
        with h2 | h2
      · subst h2
        exact Or.inr ⟨List.mem_cons_self _ _, by simpa using hd⟩
      · rcases mem_replaceRunsAux h2 with h3 | h3
        · exact Or.inl h3
        · exact Or.inr ⟨List.mem_cons_of_mem _ h3.1, h3.2⟩

open RW.OutlineParser in
/-- Every character of a finished slug is a lowercase letter, a digit or a
hyphen. -/
theorem slugifyL_chars (t : List Char) :
    ∀ c ∈ slugifyL t, slugOKb c = true := by
  intro c hc
  unfold slugifyL at hc
  have hc4 := mem_pyStripP_subset hc
  rcases mem_replaceRunsAux hc4 with h4 | h4
  · subst h4
    decide
  · rcases mem_replaceRunsAux h4.1 with h3 | h3
    · subst h3
      decide
    · have hfil := h3.1
      have hnotruns := h3.2
      have hmem2 := List.mem_filter.mp hfil
      have hkeep := hmem2.2
      have hmem1 := mem_pyStripP_subset hmem2.1
      rcases List.mem_map.mp hmem1 with ⟨d, _, hd⟩
      have hfix : pyToLower c = c := by
        rw [← hd]
        exact pyToLower_idem d
      have hnotup := pyToLower_not_upper d
      rw [hd] at hnotup
      simp [pyIsSpaceC] at hnotruns
      simp [isWordChar, isAlphaC, isDigitC, pyIsSpaceC, char_eq_hyphen_iff] at hkeep
      simp [slugOKb]
      omega

/-! ### Runs, strips: chains and no-op conditions -/

theorem replaceRunsAux_cons_pos_false {p : Char → Bool} {r c : Char} {t : List Char}
    (hc : p c = true) :
    replaceRunsAux p r false (c :: t) = r :: replaceRunsAux p r true t := by
  simp [replaceRunsAux, hc]

theorem replaceRunsAux_cons_pos_true {p : Char → Bool} {r c : Char} {t : List Char}
    (hc : p c = true) :
    replaceRunsAux p r true (c :: t) = replaceRunsAux p r true t := by
  simp [replaceRunsAux, hc]

theorem replaceRunsAux_cons_neg {p : Char → Bool} {r c : Char} {t : List Char}
    {b : Bool} (hc : p c = false) :
    replaceRunsAux p r b (c :: t) = c :: replaceRunsAux p r false t := by
  cases b <;> simp [replaceRunsAux, hc]

theorem replaceRunsAux_head_true {p : Char → Bool} {r : Char} :
    ∀ {l : List Char} {x : Char},
      (replaceRunsAux p r true l).head? = some x → p x = false
  | [], x, h => by simp [replaceRunsAux] at h
  | c :: t, x, h => by
    by_cases hc : p c = true
    · rw [replaceRunsAux_cons_pos_true hc] at h
      exact replaceRunsAux_head_true h
    · rw [replaceRunsAux_cons_neg (by simpa using hc)] at h
      have hx : x = c := by
        simpa using h.symm
      subst hx
      simpa using hc

theorem replaceRunsAux_chain {p : Char → Bool} {r : Char} :
    ∀ (b : Bool) (l : List Char),
      (replaceRunsAux p r b l).Chain' (fun a c => p a = true → p c = false)
  | _, [] => by simp [replaceRunsAux]
  | b, c :: t => by
    by_cases hc : p c = true
    · cases b with
      | true =>
        rw [replaceRunsAux_cons_pos_true hc]
        exact replaceRunsAux_chain true t
      | false =>
        rw [replaceRunsAux_cons_pos_false hc, List.chain'_cons']
        exact ⟨fun y hy _ => replaceRunsAux_head_true hy, replaceRunsAux_chain true t⟩
    · rw [replaceRunsAux_cons_neg (by simpa using hc), List.chain'_cons']
      exact ⟨fun y hy hpc => absurd hpc (by simpa using hc), replaceRunsAux_chain false t⟩

theorem replaceRunsAux_true_eq_false {p : Char → Bool} {r : Char} {l : List Char}
    (h : ∀ x, l.head? = some x → p x = false) :
    replaceRunsAux p r true l = replaceRunsAux p r false l := by
  cases l with
  | nil => rfl
  | cons c t =>
    rw [replaceRunsAux_cons_neg (h c rfl), replaceRunsAux_cons_neg (h c rfl)]

theorem replaceRunsAux_eq_self {p : Char → Bool} {r : Char}
    (hp : ∀ c, p c = true → c = r) :
    ∀ l : List Char, l.Chain' (fun a c => p a = true → p c = false) →
      replaceRunsAux p r false l = l
  | [], _ => rfl
  | c :: t, h => by
    rw [List.chain'_cons'] at h
    by_cases hc : p c = true
    · have hcr : c = r := hp c hc
      rw [replaceRunsAux_cons_pos_false hc]
      rw [replaceRunsAux_true_eq_false (fun x hx => h.1 x hx hc)]
      rw [replaceRunsAux_eq_self hp t h.2, ← hcr]
    · rw [replaceRunsAux_cons_neg (by simpa using hc)]
      rw [replaceRunsAux_eq_self hp t h.2]

theorem replaceRunsAux_eq_self_of_none {p : Char → Bool} {r : Char} :
    ∀ l : List Char, (∀ c ∈ l, p c = false) → replaceRunsAux p r false l = l
  | [], _ => rfl
  | c :: t, h => by
    rw [replaceRunsAux_cons_neg (h c (List.mem_cons_self _ _))]
    rw [replaceRunsAux_eq_self_of_none t (fun d hd => h d (List.mem_cons_of_mem _ hd))]

theorem dropWhile_head_not {p : Char → Bool} :
    ∀ {l : List Char} {x : Char}, (l.dropWhile p).head? = some x → p x = false
  | [], x, h => by simp [List.dropWhile] at h
  | c :: t, x, h => by
    by_cases hc : p c = true
    · exact dropWhile_head_not (by simpa [List.dropWhile_cons, hc] using h)
    · have hx : x = c := by
        simp [List.dropWhile_cons, hc] at h
        exact h.symm
      subst hx
      simpa using hc

theorem dropWhile_suffix_of (p : Char → Bool) (l : List Char) :
    l.dropWhile p <:+ l := by
  induction l with
  | nil => simp [List.dropWhile]
  | cons c t ih =>
    by_cases hc : p c = true
    · simpa [List.dropWhile_cons, hc] using ih.trans (List.suffix_cons c t)
    · simp [List.dropWhile_cons, hc]

theorem pyStripP_pre (p : Char → Bool) (l : List Char) :
    pyStripP p l <+: l.dropWhile p := by
  unfold pyStripP dropWhileEnd
  have h := dropWhile_suffix_of p (l.dropWhile p).reverse
  rcases h with ⟨t, ht⟩
  refine ⟨t.reverse, ?_⟩
  rw [← List.reverse_append, ht, List.reverse_reverse]

theorem pyStripP_mid (p : Char → Bool) (l : List Char) :
    pyStripP p l <:+: l :=
  (pyStripP_pre p l).isInfix.trans (dropWhile_suffix_of p l).isInfix

theorem prefix_head_eq {l m : List Char} {x : Char} (hp : l <+: m)
    (h : l.head? = some x) : m.head? = some x := by
  rcases hp with ⟨t, rfl⟩
  cases l with
  | nil => simp at h
  | cons c u => simpa using h

theorem pyStripP_head_not {p : Char → Bool} {l : List Char} {x : Char}
    (h : (pyStripP p l).head? = some x) : p x = false :=
  dropWhile_head_not (prefix_head_eq (pyStripP_pre p l) h)

theorem pyStripP_last_not {p : Char → Bool} {l : List Char} {x : Char}
    (h : (pyStripP p l).getLast? = some x) : p x = false := by
  unfold pyStripP dropWhileEnd at h
  rw [List.getLast?_reverse] at h
  exact dropWhile_head_not h

theorem dropWhile_eq_self_of_head {p : Char → Bool} {l : List Char}
    (h : ∀ x, l.head? = some x → p x = false) : l.dropWhile p = l := by
  cases l with
  | nil => rfl
  | cons c t => simp [List.dropWhile_cons, h c rfl]

theorem pyStripP_eq_self {p : Char → Bool} {l : List Char}
    (h1 : ∀ x, l.head? = some x → p x = false)
    (h2 : ∀ x, l.getLast? = some x → p x = false) : pyStripP p l = l := by
  unfold pyStripP dropWhileEnd
  rw [dropWhile_eq_self_of_head h1]
  rw [dropWhile_eq_self_of_head (fun x hx => h2 x (by rwa [List.head?_reverse] at hx))]
  rw [List.reverse_reverse]

theorem pyLower_eq_self : ∀ {l : List Char}, (∀ c ∈ l, pyToLower c = c) → pyLower l = l
  | [], _ => rfl
  | c :: t, h => by
    have ht := pyLower_eq_self (l := t) (fun d hd => h d (List.mem_cons_of_mem _ hd))
    simp only [pyLower, List.map_cons]
    rw [h c (List.mem_cons_self _ _)]
    simpa [pyLower] using ht

/-! ### Substring characterization of Python `in` -/

theorem containsSubstr_iff (pat : List Char) :
    ∀ l : List Char, containsSubstr pat l = true ↔ ∃ a b, l = a ++ pat ++ b
  | [] => by
    constructor
    · intro h
      have hp : pat = [] := by
        simpa [containsSubstr, List.isEmpty_iff] using h
      exact ⟨[], [], by simp [hp]⟩
    · rintro ⟨a, b, hab⟩
      have hdec : a = [] ∧ pat = [] ∧ b = [] := by
        have := hab.symm
        simp only [List.append_assoc, List.append_eq_nil] at this
        exact ⟨this.1, this.2.1, this.2.2⟩
      simp [containsSubstr, List.isEmpty_iff, hdec.2.1]
  | c :: cs => by
    constructor
    · intro h
      rcases (by simpa [containsSubstr, Bool.or_eq_true] using h :
          List.isPrefixOf pat (c :: cs) = true ∨ containsSubstr pat cs = true) with h1 | h1
      · rcases List.isPrefixOf_iff_prefix.mp h1 with ⟨t, ht⟩
        exact ⟨[], t, by simp [← ht]⟩
      · rcases (containsSubstr_iff pat cs).mp h1 with ⟨a, b, hab⟩
        exact ⟨c :: a, b, by simp [hab]⟩
    · rintro ⟨a, b, hab⟩
      cases a with
      | nil =>
        have hpre : List.isPrefixOf pat (c :: cs) = true :=
          List.isPrefixOf_iff_prefix.mpr ⟨b, by simpa using hab.symm⟩
        simp [containsSubstr, hpre]
      | cons c2 a2 =>
        have hc : c = c2 ∧ cs = a2 ++ (pat ++ b) := by
          simpa using hab
        have h2 := (containsSubstr_iff pat cs).mpr ⟨a2, b, by simpa using hc.2⟩
        simp [containsSubstr, h2]

end RW

namespace RW

theorem mem_of_head? {α : Type} {l : List α} {x : α} (h : l.head? = some x) : x ∈ l := by
  cases l with
  | nil => simp at h
  | cons c t =>
    have : x = c := by simpa using h.symm
    subst this
    exact List.mem_cons_self _ _

theorem mem_of_getLast? {α : Type} {l : List α} {x : α} (h : l.getLast? = some x) : x ∈ l := by
  have h2 : l.reverse.head? = some x := by
    rw [List.head?_reverse]
    exact h
  exact List.mem_reverse.mp (mem_of_head? h2)

end RW

namespace RW.OutlineParser

open RW

theorem slugifyL_head_ne (t : List Char) {x : Char}
    (h : (slugifyL t).head? = some x) : ¬ x = '-' := by
  have h2 := pyStripP_head_not (p := fun c => decide (c = '-')) h
  simpa using h2

theorem slugifyL_last_ne (t : List Char) {x : Char}
    (h : (slugifyL t).getLast? = some x) : ¬ x = '-' := by
  have h2 := pyStripP_last_not (p := fun c => decide (c = '-')) h
  simpa using h2

theorem slugifyL_chain (t : List Char) :
    (slugifyL t).Chain' (fun a b => ¬(a = '-' ∧ b = '-')) := by
  have key : ∀ X : List Char,
      (pyStripP (fun c => decide (c = '-'))
        (replaceRuns (fun c => decide (c = '-')) '-' X)).Chain'
        (fun a b => ¬(a = '-' ∧ b = '-')) := by
    intro X
    have h4 := replaceRunsAux_chain (p := fun c => decide (c = '-')) (r := '-') false X
    have h5 := List.Chain'.infix h4
      (pyStripP_mid (fun c => decide (c = '-'))
        (replaceRunsAux (fun c => decide (c = '-')) '-' false X))
    refine h5.imp ?_
    intro a b hr hab
    have hx := hr (by simpa using hab.1)
    simp [hab.2] at hx
  exact key _

theorem slugifyL_idem (t : List Char) : slugifyL (slugifyL t) = slugifyL t := by
  have hchars := slugifyL_chars t
  have hchain := slugifyL_chain t
  show slugifyL (slugifyL t) = slugifyL t
  conv_lhs => rw [slugifyL]
  rw [pyLower_eq_self (fun c hc => slugOKb_toLower_fix (hchars c hc))]
  rw [show pyStrip (slugifyL t) = slugifyL t from pyStripP_eq_self
    (fun x hx => slugOKb_not_space (hchars x (mem_of_head? hx)))
    (fun x hx => slugOKb_not_space (hchars x (mem_of_getLast? hx)))]
  rw [List.filter_eq_self.mpr (fun c hc => slugOKb_filter_keep (hchars c hc))]
  rw [show replaceRuns (fun c => pyIsSpaceC c || decide (c.toNat = 95)) '-' (slugifyL t)
        = slugifyL t from
      replaceRunsAux_eq_self_of_none (slugifyL t)
        (fun c hc => slugOKb_not_runs1 (hchars c hc))]
  have himp : ∀ a b : Char, ¬(a = '-' ∧ b = '-') →
      (decide (a = '-') = true → decide (b = '-') = false) := by
    intro a b hr hpa
    simp only [decide_eq_true_eq] at hpa
    by_cases hb : b = '-'
    · exact absurd ⟨hpa, hb⟩ hr
    · simpa using hb
  rw [show replaceRuns (fun c => decide (c = '-')) '-' (slugifyL t) = slugifyL t from
      replaceRunsAux_eq_self (fun c h => by simpa using h) (slugifyL t)
        (List.Chain'.imp (fun {a b} h => himp a b h) hchain)]
  exact pyStripP_eq_self
    (fun x hx => by simpa using slugifyL_head_ne t hx)
    (fun x hx => by simpa using slugifyL_last_ne t hx)

end RW.OutlineParser

open RW RW.OutlineParser in
/-- C7: for every input string `x`, `slugify (slugify x) = slugify x`, and
`slugify x` never contains two consecutive hyphens (Python `"--" in slug`
is false) and never has a leading or a trailing hyphen. -/
theorem c7_slugify_idempotent_clean (x : String) :
    slugify (slugify x) = slugify x
    ∧ containsSubstr ('-' :: '-' :: []) (slugify x).toList = false
    ∧ (∀ c, (slugify x).toList.head? = some c → ¬ c = '-')
    ∧ (∀ c, (slugify x).toList.getLast? = some c → ¬ c = '-') := by
  refine ⟨?_, ?_, ?_, ?_⟩
  · show (⟨slugifyL (slugifyL x.toList)⟩ : String) = ⟨slugifyL x.toList⟩
    exact congrArg String.mk (slugifyL_idem x.toList)
  · by_contra hcon
    rw [Bool.not_eq_false, containsSubstr_iff] at hcon
    rcases hcon with ⟨a, b, hab⟩
    have hinf : ('-' :: '-' :: []) <:+: (slugify x).toList := ⟨a, b, hab.symm⟩
    have hchain := slugifyL_chain x.toList
    have h2 := List.Chain'.infix hchain hinf
    rw [List.chain'_pair] at h2
    exact h2 ⟨rfl, rfl⟩
  · exact fun c hc => slugifyL_head_ne x.toList hc
  · exact fun c hc => slugifyL_last_ne x.toList hc

open RW RW.OutlineParser in
/-- Witness for C7 at a concrete title. -/
theorem c7_slugify_witness :
    slugify (slugify ("Hello  World!")) = slugify ("Hello  World!")
    ∧ containsSubstr ('-' :: '-' :: []) (slugify ("Hello  World!")).toList = false
    ∧ ¬ 'h' = '-'
    ∧ slugify ("Hello  World!") = "hello-world" := by
  refine ⟨(c7_slugify_idempotent_clean ("Hello  World!")).1,
    (c7_slugify_idempotent_clean ("Hello  World!")).2.1,
    (c7_slugify_idempotent_clean ("Hello  World!")).2.2.1 'h' (by decide), by decide⟩

namespace RW.OutlineParser

open RW

theorem popGE_mem {level : Nat} :
    ∀ {stack : List (Nat × String)} {e : Nat × String},
      e ∈ popGE level stack → e ∈ stack
  | [], e, h => by simp [popGE] at h
  | f :: t, e, h => by
    by_cases hf : f.1 ≥ level
    · exact List.mem_cons_of_mem _ (popGE_mem (by simpa [popGE, hf] using h))
    · simpa [popGE, hf] using h

theorem popGE_head_lt {level : Nat} :
    ∀ {stack : List (Nat × String)} {e : Nat × String},
      (popGE level stack).head? = some e → e.1 < level
  | [], e, h => by simp [popGE] at h
  | f :: t, e, h => by
    by_cases hf : f.1 ≥ level
    · exact popGE_head_lt (by simpa [popGE, hf] using h)
    · have he : e = f := by simpa [popGE, hf] using h.symm
      subst he
      omega

theorem parseOutlineAux_length :
    ∀ (hs : List Heading) (stack : List (Nat × String)),
      (parseOutlineAux hs stack).length = hs.length
  | [], _ => rfl
  | h :: rest, stack => by
    simp [parseOutlineAux, parseOutlineAux_length rest]

theorem parseOutlineAux_invariant :
    ∀ (hs : List Heading) (stack : List (Nat × String)) (pre : List Section),
      (∀ e ∈ stack, ∃ s ∈ pre, s.id = e.2 ∧ s.level = e.1) →
      ∀ (i : Nat) (hi : i < (parseOutlineAux hs stack).length) (p : String),
        ((parseOutlineAux hs stack).get ⟨i, hi⟩).parent_id = some p →
        ∃ s ∈ pre ++ (parseOutlineAux hs stack).take i,
          s.id = p ∧ s.level < ((parseOutlineAux hs stack).get ⟨i, hi⟩).level
  | [], stack, pre, hstack, i, hi, p, hp => by
    simp [parseOutlineAux] at hi
  | h :: rest, stack, pre, hstack, i, hi, p, hp => by
    match i with
    | 0 =>
      simp only [parseOutlineAux, List.get] at hp
      rcases Option.map_eq_some'.mp hp with ⟨e, he, hep⟩
      have hmem : e ∈ popGE h.level stack := mem_of_head? he
      have hlt : e.1 < h.level := popGE_head_lt he
      rcases hstack e (popGE_mem hmem) with ⟨s, hs, hsid, hslevel⟩
      refine ⟨s, by simp [hs], by rw [hsid, hep], ?_⟩
      simp only [parseOutlineAux, List.get]
      omega
    | Nat.succ j =>
      have hi2 : j < (parseOutlineAux rest ((h.level, slugify h.title) ::
          popGE h.level stack)).length := by
        simpa [parseOutlineAux] using hi
      have hstack2 : ∀ e ∈ (h.level, slugify h.title) :: popGE h.level stack,
          ∃ s ∈ pre ++ [⟨slugify h.title, h.title, h.level,
            (popGE h.level stack).head?.map Prod.snd⟩], s.id = e.2 ∧ s.level = e.1 := by
        intro e he
        rcases List.mem_cons.mp he with he2 | he2
        · subst he2
          refine ⟨⟨slugify h.title, h.title, h.level,
            (popGE h.level stack).head?.map Prod.snd⟩, by simp, rfl, rfl⟩
        · rcases hstack e (popGE_mem he2) with ⟨s, hs, h1, h2⟩
          exact ⟨s, by simp [hs], h1, h2⟩
      have ih := parseOutlineAux_invariant rest
        ((h.level, slugify h.title) :: popGE h.level stack)
        (pre ++ [⟨slugify h.title, h.title, h.level,
          (popGE h.level stack).head?.map Prod.snd⟩]) hstack2 j hi2 p
        (by simpa [parseOutlineAux] using hp)
      rcases ih with ⟨s, hs, h1, h2⟩
      refine ⟨s, ?_, h1, by simpa [parseOutlineAux] using h2⟩
      simp only [parseOutlineAux, List.take, List.append_assoc] at hs ⊢
      simpa using hs

end RW.OutlineParser

open RW RW.OutlineParser in
/-- C3: for a markdown outline whose ATX-heading matches are the list `hs`
(the heading regex scan is deterministic preprocessing; see `Heading`),
`parse_outline` returns exactly one `Section` per heading, in document
order, and every section with a non-`None` `parent_id` is preceded in the
returned list by a section whose `id` equals that `parent_id` and whose
`level` is strictly smaller. -/
theorem c3_outline_structure (hs : List Heading) :
    (parse_outline hs).length = hs.length
    ∧ ∀ (i : Nat) (hi : i < (parse_outline hs).length) (p : String),
        ((parse_outline hs).get ⟨i, hi⟩).parent_id = some p →
        ∃ s ∈ (parse_outline hs).take i,
          s.id = p ∧ s.level < ((parse_outline hs).get ⟨i, hi⟩).level := by
  constructor
  · exact parseOutlineAux_length hs []
  · intro i hi p hp
    have h := parseOutlineAux_invariant hs [] [] (by simp) i hi p hp
    simpa using h

open RW RW.OutlineParser in
/-- Witness for C3: a three-heading outline `# A`, `## B`, `# C`; the
second section's parent is the first. -/
theorem c3_outline_witness :
    (parse_outline [⟨1, "A"⟩, ⟨2, "B"⟩, ⟨1, "C"⟩]).length = 3
    ∧ (∃ s ∈ (parse_outline [⟨1, "A"⟩, ⟨2, "B"⟩, ⟨1, "C"⟩]).take 1,
        s.id = "a" ∧ s.level <
          ((parse_outline [⟨1, "A"⟩, ⟨2, "B"⟩, ⟨1, "C"⟩]).get
            ⟨1, by decide⟩).level) := by
  refine ⟨(c3_outline_structure [⟨1, "A"⟩, ⟨2, "B"⟩, ⟨1, "C"⟩]).1, ?_⟩
  exact (c3_outline_structure [⟨1, "A"⟩, ⟨2, "B"⟩, ⟨1, "C"⟩]).2 1 (by decide) "a"
    (by decide)

namespace RW.OutlineParser

open RW

theorem getLast?_cons_of_ne_nil {α : Type} {X : List α} (h : ¬ X = []) (a : α) :
    (a :: X).getLast? = X.getLast? := by
  cases X with
  | nil => exact absurd rfl h
  | cons b t => simp [List.getLast?_cons_cons]

theorem processRatingLine_foldl (k : List Char) :
    ∀ (prs : List (List Char)) (acc : List (List Char × Int)),
      lookupA k (prs.foldl ratingStep acc) =
      ((prs.filterMap parsePair).filter (fun kv => kv.1 = k)).getLast?.elim
        (lookupA k acc) (fun kv => some kv.2)
  | [], acc => by simp
  | pr :: rest, acc => by
    rw [List.foldl_cons]
    cases hpr : parsePair pr with
    | none =>
      have hstep : ratingStep acc pr = acc := by simp [ratingStep, hpr]
      rw [hstep, processRatingLine_foldl k rest acc]
      simp [hpr]
    | some kv =>
      have hstep : ratingStep acc pr = insertOverwrite kv.1 kv.2 acc := by
        simp [ratingStep, hpr]
      rw [hstep, processRatingLine_foldl k rest (insertOverwrite kv.1 kv.2 acc)]
      rw [show List.filterMap parsePair (pr :: rest) = kv :: List.filterMap parsePair rest from by
        simp [List.filterMap_cons, hpr]]
      by_cases hk : kv.1 = k
      · rw [show List.filter (fun kv2 => decide (kv2.1 = k)) (kv :: List.filterMap parsePair rest)
            = kv :: List.filter (fun kv2 => decide (kv2.1 = k)) (List.filterMap parsePair rest)
            from by simp [List.filter_cons, hk]]
        cases hrest :
            ((rest.filterMap parsePair).filter (fun kv2 => decide (kv2.1 = k))).getLast? with
        | none =>
          have hnil : (rest.filterMap parsePair).filter (fun kv2 => decide (kv2.1 = k)) = [] := by
            simpa using hrest
          rw [hnil]
          simp only [Option.elim, List.getLast?_singleton]
          rw [lookupA_insertOverwrite, if_pos hk]
        | some kv2 =>
          have hne2 : ¬ (rest.filterMap parsePair).filter (fun kv2 => decide (kv2.1 = k)) = [] := by
            intro hn
            rw [hn] at hrest
            simp at hrest
          rw [getLast?_cons_of_ne_nil hne2, hrest]
          simp [Option.elim]
      · rw [show List.filter (fun kv2 => decide (kv2.1 = k)) (kv :: List.filterMap parsePair rest)
            = List.filter (fun kv2 => decide (kv2.1 = k)) (List.filterMap parsePair rest)
            from by simp [List.filter_cons, hk]]
        cases hrest :
            ((rest.filterMap parsePair).filter (fun kv2 => decide (kv2.1 = k))).getLast? with
        | none =>
          simp only [Option.elim]
          rw [lookupA_insertOverwrite, if_neg hk]
        | some kv2 => simp [Option.elim]

theorem processRatingLine_lookup (part : List Char) (k : List Char)
    (acc : List (List Char × Int)) :
    lookupA k (processRatingLine part acc) =
      ((parsedPairs part).filter (fun kv => kv.1 = k)).getLast?.elim
        (lookupA k acc) (fun kv => some kv.2) :=
  processRatingLine_foldl k (splitOnCharL ',' part) acc

end RW.OutlineParser

open RW RW.OutlineParser in
/-- C8: the two fixture behaviours of `parse_review_block` (the two-rating
line with notes, and the empty / whitespace-only inputs), together with
the `RATING:` line policy: the final rating for a key is the value of the
last comma-separated `key=value` pair whose value parses as a Python
integer (pairs that fail to parse are dropped; duplicate keys are
overwritten); a key no successful pair mentions is absent. -/
theorem c8_review_block (part : List Char) (k : List Char) :
    parse_review_block (("RATING: accuracy=4, completeness=3" ++ "\n" ++
        "NOTES: Good work.").toList) =
      ⟨[], [(("accuracy").toList, 4), (("completeness").toList, 3)],
        ("Good work.").toList⟩
    ∧ parse_review_block (("").toList) = ⟨[], [], []⟩
    ∧ parse_review_block (("  " ++ "\n" ++ " ").toList) = ⟨[], [], []⟩
    ∧ lookupA k (processRatingLine part []) =
        ((parsedPairs part).filter (fun kv => kv.1 = k)).getLast?.elim none
          (fun kv => some kv.2) := by
  refine ⟨by decide, by decide, by decide, ?_⟩
  rw [processRatingLine_lookup part k []]
  rfl

open RW RW.OutlineParser in
/-- Witness for C8's universally quantified rating-line conjunct at a
concrete line with a dropped pair and a duplicate key. -/
theorem c8_review_block_witness :
    lookupA (("a").toList) (processRatingLine (("a=1, b=x, a=2").toList) []) =
      ((parsedPairs (("a=1, b=x, a=2").toList)).filter
        (fun kv => kv.1 = ("a").toList)).getLast?.elim none (fun kv => some kv.2)
    ∧ lookupA (("a").toList) (processRatingLine (("a=1, b=x, a=2").toList) []) = some 2
    ∧ lookupA (("b").toList) (processRatingLine (("a=1, b=x, a=2").toList) []) = none :=
  ⟨(c8_review_block (("a=1, b=x, a=2").toList) (("a").toList)).2.2.2,
    by decide, by decide⟩

namespace RW.PyJson

open RW

/-! ### Appending a stray closing brace to a parsed document

`_load_plot_specs` re-attaches a closing brace to the first chunk. For a
single-object file the chunk is the whole (already well-formed) document,
so the re-attached text has trailing data and `json.loads` fails. The
lemmas below prove this for every document: a successful parse extends
over an appended `\x7d` with the brace surviving as trailing input. -/


theorem skipWS_append_cons {l : List Char} {c : Char} {cs : List Char}
    (h : skipWS l = c :: cs) (t : List Char) : skipWS (l ++ t) = c :: (cs ++ t) := by
  induction l with
  | nil => simp [skipWS] at h
  | cons d ds ih =>
    by_cases hd : jsonWS d = true
    · rw [skipWS, if_pos hd] at h
      rw [List.cons_append, skipWS, if_pos hd]
      exact ih h
    · rw [skipWS, if_neg hd] at h
      rw [List.cons_append, skipWS, if_neg hd]
      rw [List.cons.injEq] at h
      rw [h.1, h.2]

theorem skipWS_append_nil {l : List Char} (h : skipWS l = []) (t : List Char) :
    skipWS (l ++ t) = skipWS t := by
  induction l with
  | nil => rfl
  | cons d ds ih =>
    by_cases hd : jsonWS d = true
    · rw [skipWS, if_pos hd] at h
      rw [List.cons_append, skipWS, if_pos hd]
      exact ih h
    · rw [skipWS, if_neg hd] at h
      exact absurd h (by simp)

theorem skipWS_rbrace : skipWS [rbrace] = [rbrace] := by decide

theorem takeWhile_append_one {p : Char → Bool} {x : Char} (hx : p x = false) :
    ∀ a : List Char, (a ++ [x]).takeWhile p = a.takeWhile p
      ∧ (a ++ [x]).dropWhile p = a.dropWhile p ++ [x]
  | [] => by simp [List.takeWhile, List.dropWhile, hx]
  | c :: cs => by
    by_cases hc : p c = true
    · simp only [List.cons_append, List.takeWhile_cons, List.dropWhile_cons, hc]
      have h := takeWhile_append_one hx cs
      simp [h.1, h.2]
    · simp only [List.cons_append, List.takeWhile_cons, List.dropWhile_cons,
        Bool.not_eq_true] at hc ⊢
      simp [hc]

theorem parseStringBody_ext : ∀ (l : List Char) {s rest : List Char},
    parseStringBody l = some (s, rest) → ∀ t,
      parseStringBody (l ++ t) = some (s, rest ++ t)
  | [], s, rest, h => by simp [parseStringBody] at h
  | c :: cs, s, rest, h => by
    intro t
    by_cases hq : c = '"'
    · rw [parseStringBody.eq_def] at h
      simp only [if_pos hq] at h
      rw [List.cons_append, parseStringBody.eq_def]
      simp only [if_pos hq]
      rw [Option.some.injEq, Prod.mk.injEq] at h
      rw [Option.some.injEq, Prod.mk.injEq]
      exact ⟨h.1, by rw [← h.2]⟩
    · by_cases hb : c = '\\'
      · rw [parseStringBody.eq_def] at h
        simp only [if_neg hq, if_pos hb] at h
        rw [List.cons_append, parseStringBody.eq_def]
        simp only [if_neg hq, if_pos hb]
        cases cs with
        | nil => simp at h
        | cons e cs2 =>
          rw [List.cons_append]
          cases he : escChar e with
          | none =>
            simp only [he] at h
            exact absurd h (by simp)
          | some d =>
            simp only [he] at h ⊢
            rw [Option.map_eq_some'] at h
            obtain ⟨r, hr, hrd⟩ := h
            rw [parseStringBody_ext cs2 (by rw [hr]) t]
            simp only [Option.map_some']
            rw [Prod.mk.injEq] at hrd
            rw [← hrd.1, ← hrd.2]
      · rw [parseStringBody.eq_def] at h
        simp only [if_neg hq, if_neg hb] at h
        rw [List.cons_append, parseStringBody.eq_def]
        simp only [if_neg hq, if_neg hb]
        rw [Option.map_eq_some'] at h
        obtain ⟨r, hr, hrd⟩ := h
        rw [parseStringBody_ext cs (by rw [hr]) t]
        simp only [Option.map_some']
        rw [Prod.mk.injEq] at hrd
        rw [← hrd.1, ← hrd.2]

theorem signSplit_append (r : List Char) :
    (match r ++ [rbrace] with
      | '+' :: t => ((['+'] : List Char), t)
      | '-' :: t => ((['-'] : List Char), t)
      | t => (([] : List Char), t)) =
    ((match r with
      | '+' :: t => ((['+'] : List Char), t)
      | '-' :: t => ((['-'] : List Char), t)
      | t => (([] : List Char), t)).1,
     (match r with
      | '+' :: t => ((['+'] : List Char), t)
      | '-' :: t => ((['-'] : List Char), t)
      | t => (([] : List Char), t)).2 ++ [rbrace]) := by
  cases r with
  | nil => rfl
  | cons c r2 =>
    by_cases hp : c = '+'
    · subst hp; rfl
    · by_cases hm : c = '-'
      · subst hm; rfl
      · rw [List.cons_append]
        split
        · next t heq =>
            rw [List.cons.injEq] at heq
            exact absurd heq.1 hp
        · next t heq =>
            rw [List.cons.injEq] at heq
            exact absurd heq.1 hm
        · next t h1 h2 =>
            split
            · next t2 heq =>
                rw [List.cons.injEq] at heq
                exact absurd heq.1 hp
            · next t2 heq =>
                rw [List.cons.injEq] at heq
                exact absurd heq.1 hm
            · next t2 h3 h4 => rfl

theorem signSplit_append_fst (r : List Char) :
    (match r ++ [rbrace] with
      | '+' :: t => ((['+'] : List Char), t)
      | '-' :: t => ((['-'] : List Char), t)
      | t => (([] : List Char), t)).1 =
    (match r with
      | '+' :: t => ((['+'] : List Char), t)
      | '-' :: t => ((['-'] : List Char), t)
      | t => (([] : List Char), t)).1 := by
  rw [signSplit_append]

theorem signSplit_append_snd (r : List Char) :
    (match r ++ [rbrace] with
      | '+' :: t => ((['+'] : List Char), t)
      | '-' :: t => ((['-'] : List Char), t)
      | t => (([] : List Char), t)).2 =
    (match r with
      | '+' :: t => ((['+'] : List Char), t)
      | '-' :: t => ((['-'] : List Char), t)
      | t => (([] : List Char), t)).2 ++ [rbrace] := by
  rw [signSplit_append]

theorem isDigitC_rbrace : isDigitC rbrace = false := by decide

theorem parseExpPart_ext (acc : List Char) (r : List Char) {tok rest : List Char}
    (h : parseExpPart acc r = some (tok, rest)) :
    parseExpPart acc (r ++ [rbrace]) = some (tok, rest ++ [rbrace]) := by
  simp only [parseExpPart] at h ⊢
  rw [signSplit_append_fst, signSplit_append_snd]
  rw [(takeWhile_append_one isDigitC_rbrace _).1, (takeWhile_append_one isDigitC_rbrace _).2]
  split at h
  · exact absurd h (by simp)
  · next hcond =>
      rw [if_neg hcond]
      rw [Option.some.injEq, Prod.mk.injEq] at h ⊢
      exact ⟨h.1, by rw [← h.2]⟩

theorem parseNumTail_ext (acc : List Char) (r : List Char) {tok rest : List Char}
    (h : parseNumTail acc r = some (tok, rest)) :
    parseNumTail acc (r ++ [rbrace]) = some (tok, rest ++ [rbrace]) := by
  rw [parseNumTail.eq_def] at h
  split at h
  · next r2 =>
      rw [List.cons_append, parseNumTail.eq_def]
      exact parseExpPart_ext _ _ h
  · next r2 =>
      rw [List.cons_append, parseNumTail.eq_def]
      exact parseExpPart_ext _ _ h
  · next hne hnE =>
      rw [Option.some.injEq, Prod.mk.injEq] at h
      rw [parseNumTail.eq_def]
      split
      · next r2 heq =>
          cases r with
          | nil => simp at heq; exact absurd heq.1 (by decide)
          | cons c r3 =>
              rw [List.cons_append, List.cons.injEq] at heq
              exact (hne r3 (by rw [heq.1])).elim
      · next r2 heq =>
          cases r with
          | nil => simp at heq; exact absurd heq.1 (by decide)
          | cons c r3 =>
              rw [List.cons_append, List.cons.injEq] at heq
              exact (hnE r3 (by rw [heq.1])).elim
      · next h1 h2 =>
          rw [Option.some.injEq, Prod.mk.injEq]
          exact ⟨h.1, by rw [← h.2]⟩

theorem minusSplit_append (l : List Char) :
    (match l ++ [rbrace] with
      | '-' :: r => ((['-'] : List Char), r)
      | r => (([] : List Char), r)) =
    ((match l with
      | '-' :: r => ((['-'] : List Char), r)
      | r => (([] : List Char), r)).1,
     (match l with
      | '-' :: r => ((['-'] : List Char), r)
      | r => (([] : List Char), r)).2 ++ [rbrace]) := by
  cases l with
  | nil => rfl
  | cons c r2 =>
    by_cases hm : c = '-'
    · subst hm; rfl
    · rw [List.cons_append]
      split
      · next t heq =>
          rw [List.cons.injEq] at heq
          exact absurd heq.1 hm
      · next t h1 =>
          split
          · next t2 heq =>
              rw [List.cons.injEq] at heq
              exact absurd heq.1 hm
          · next t2 h2 => rfl

theorem minusSplit_append_fst (l : List Char) :
    (match l ++ [rbrace] with
      | '-' :: r => ((['-'] : List Char), r)
      | r => (([] : List Char), r)).1 =
    (match l with
      | '-' :: r => ((['-'] : List Char), r)
      | r => (([] : List Char), r)).1 := by
  rw [minusSplit_append]

theorem minusSplit_append_snd (l : List Char) :
    (match l ++ [rbrace] with
      | '-' :: r => ((['-'] : List Char), r)
      | r => (([] : List Char), r)).2 =
    (match l with
      | '-' :: r => ((['-'] : List Char), r)
      | r => (([] : List Char), r)).2 ++ [rbrace] := by
  rw [minusSplit_append]

theorem parseNum_ext (l : List Char) (tok rest : List Char)
    (h : parseNum l = some (tok, rest)) :
    parseNum (l ++ [rbrace]) = some (tok, rest ++ [rbrace]) := by
  simp only [parseNum] at h ⊢
  rw [minusSplit_append_fst, minusSplit_append_snd]
  rw [(takeWhile_append_one isDigitC_rbrace _).1, (takeWhile_append_one isDigitC_rbrace _).2]
  split at h
  · exact absurd h (by simp)
  · next hcond =>
      rw [if_neg hcond]
      split at h
      · next r2 heq =>
          rw [heq, List.cons_append]
          split
          · next r3 heq2 =>
              rw [List.cons.injEq] at heq2
              rw [← heq2.2]
              rw [(takeWhile_append_one isDigitC_rbrace r2).1,
                (takeWhile_append_one isDigitC_rbrace r2).2]
              split at h
              · exact absurd h (by simp)
              · next hfs =>
                  rw [if_neg hfs]
                  exact parseNumTail_ext _ _ h
          · next hno =>
              exact absurd rfl (hno (r2 ++ [rbrace]))
      · next h1 =>
          split
          · next r3 heq2 =>
              cases hdw : List.dropWhile isDigitC
                  (match l with
                    | '-' :: r => ((['-'] : List Char), r)
                    | r => (([] : List Char), r)).2 with
              | nil =>
                  rw [hdw] at heq2
                  simp only [List.nil_append, List.cons.injEq] at heq2
                  exact absurd heq2.1 (by decide)
              | cons d ds =>
                  rw [hdw, List.cons_append, List.cons.injEq] at heq2
                  exact absurd (by rw [hdw, heq2.1]) (fun hh => h1 ds hh)
          · next hno =>
              exact parseNumTail_ext _ _ h

theorem parseNum_head {c : Char} {cs : List Char} {r : List Char × List Char}
    (h : parseNum (c :: cs) = some r) : c = '-' ∨ isDigitC c = true := by
  by_cases hm : c = '-'
  · exact Or.inl hm
  · right
    simp only [parseNum] at h
    have hred : (match c :: cs with
        | '-' :: r => ((['-'] : List Char), r)
        | r => (([] : List Char), r)) = ([], c :: cs) := by
      split
      · next t heq =>
          rw [List.cons.injEq] at heq
          exact absurd heq.1 hm
      · next t h1 => rfl
    rw [hred] at h
    split at h
    · exact absurd h (by simp)
    · next hcond =>
        by_cases hd : isDigitC c = true
        · exact hd
        · exact absurd (by simp [List.takeWhile_cons, hd]) hcond

theorem isPrefixOf_append {p x t : List Char} (h : List.isPrefixOf p x = true) :
    List.isPrefixOf p (x ++ t) = true := by
  rw [List.isPrefixOf_iff_prefix] at h ⊢
  exact h.trans (List.prefix_append x t)

theorem isPrefixOf_length_le {p x : List Char} (h : List.isPrefixOf p x = true) :
    p.length ≤ x.length := by
  rw [List.isPrefixOf_iff_prefix] at h
  exact h.length_le

theorem drop_append_of_le {n : Nat} {x t : List Char} (h : n ≤ x.length) :
    (x ++ t).drop n = x.drop n ++ t :=
  List.drop_append_of_le_length h

theorem isPrefixOf_cons_false {d c : Char} {p cs : List Char} (h : (d == c) = false) :
    List.isPrefixOf (d :: p) (c :: cs) = false := by
  simp only [List.isPrefixOf, h, Bool.false_and]

theorem prefix_head_eq2 {a b : Char} {p q : List Char}
    (h : List.isPrefixOf (a :: p) (b :: q) = true) : a = b := by
  rw [List.isPrefixOf_iff_prefix] at h
  exact (List.cons_prefix_cons.mp h).1

theorem num_head_ne {c : Char} (h : c = '-' ∨ isDigitC c = true) :
    (('t' == c) = false) ∧ (('f' == c) = false) ∧ (('n' == c) = false) := by
  rcases h with h | h
  · subst h; refine ⟨by decide, by decide, by decide⟩
  · refine ⟨?_, ?_, ?_⟩ <;> rw [beq_eq_false_iff_ne] <;> intro heq <;>
      rw [← heq] at h <;> exact absurd h (by decide)

theorem parse_ext_all : ∀ fuel : Nat,
    (∀ l v rest, parseValue fuel l = some (v, rest) →
        parseValue (fuel + 1) (l ++ [rbrace]) = some (v, rest ++ [rbrace]))
    ∧ (∀ l m rest, parseMembers fuel l = some (m, rest) →
        parseMembers (fuel + 1) (l ++ [rbrace]) = some (m, rest ++ [rbrace]))
    ∧ (∀ l xs rest, parseElems fuel l = some (xs, rest) →
        parseElems (fuel + 1) (l ++ [rbrace]) = some (xs, rest ++ [rbrace]))
  | 0 => by
    refine ⟨?_, ?_, ?_⟩ <;> intro l a b h
    · rw [parseValue] at h; exact absurd h (by simp)
    · rw [parseMembers] at h; exact absurd h (by simp)
    · rw [parseElems] at h; exact absurd h (by simp)
  | fuel + 1 => by
    obtain ⟨ihV, ihM, ihE⟩ := parse_ext_all fuel
    refine ⟨?_, ?_, ?_⟩
    · -- parseValue
      intro l v rest h
      rw [parseValue] at h
      rw [parseValue]
      cases hsk : skipWS l with
      | nil => rw [hsk] at h; exact absurd h (by simp)
      | cons c cs =>
        simp only [hsk] at h
        simp only [skipWS_append_cons hsk]
        by_cases h1 : c = '"'
        · simp only [if_pos h1] at h ⊢
          rw [Option.map_eq_some'] at h
          obtain ⟨r, hr, hrf⟩ := h
          rw [parseStringBody_ext cs (by rw [hr]) [rbrace]]
          simp only [Option.map_some']
          rw [Prod.mk.injEq] at hrf
          rw [← hrf.1, ← hrf.2]
        · by_cases h2 : c = lbrace
          · simp only [if_neg h1, if_pos h2] at h ⊢
            cases hsk2 : skipWS cs with
            | nil => simp only [hsk2] at h; exact absurd h (by simp)
            | cons d ds =>
              simp only [hsk2] at h
              simp only [skipWS_append_cons hsk2]
              by_cases hd : d = rbrace
              · simp only [if_pos hd] at h ⊢
                rw [Option.some.injEq, Prod.mk.injEq] at h
                rw [← h.1, ← h.2]
              · simp only [if_neg hd] at h ⊢
                rw [Option.map_eq_some'] at h
                obtain ⟨r, hr, hrf⟩ := h
                have hext := ihM (d :: ds) r.1 r.2 (by rw [hr])
                rw [List.cons_append] at hext
                rw [hext]
                simp only [Option.map_some']
                rw [Prod.mk.injEq] at hrf
                rw [← hrf.1, ← hrf.2]
          · by_cases h3 : c = '['
            · simp only [if_neg h1, if_neg h2, if_pos h3] at h ⊢
              cases hsk2 : skipWS cs with
              | nil => simp only [hsk2] at h; exact absurd h (by simp)
              | cons d ds =>
                simp only [hsk2] at h
                simp only [skipWS_append_cons hsk2]
                by_cases hd : d = ']'
                · simp only [if_pos hd] at h ⊢
                  rw [Option.some.injEq, Prod.mk.injEq] at h
                  rw [← h.1, ← h.2]
                · simp only [if_neg hd] at h ⊢
                  rw [Option.map_eq_some'] at h
                  obtain ⟨r, hr, hrf⟩ := h
                  have hext := ihE (d :: ds) r.1 r.2 (by rw [hr])
                  rw [List.cons_append] at hext
                  rw [hext]
                  simp only [Option.map_some']
                  rw [Prod.mk.injEq] at hrf
                  rw [← hrf.1, ← hrf.2]
            · simp only [if_neg h1, if_neg h2, if_neg h3] at h ⊢
              by_cases h4 : List.isPrefixOf (("true").toList) (c :: cs) = true
              · rw [if_pos h4] at h
                have h4x : List.isPrefixOf (("true").toList) (c :: (cs ++ [rbrace])) = true := by
                  rw [← List.cons_append]
                  exact isPrefixOf_append h4
                rw [if_pos h4x]
                have hlen := isPrefixOf_length_le h4
                rw [show (("true").toList).length = 4 from rfl] at hlen
                rw [Option.some.injEq, Prod.mk.injEq] at h ⊢
                rw [← List.cons_append, drop_append_of_le hlen]
                exact ⟨h.1, by rw [← h.2]⟩
              · by_cases h5 : List.isPrefixOf (("false").toList) (c :: cs) = true
                · rw [if_neg h4, if_pos h5] at h
                  have hc : 'f' = c := prefix_head_eq2 (by
                    rw [show ("false").toList = 'f' :: ("alse").toList from rfl] at h5
                    exact h5)
                  have h4x : List.isPrefixOf (("true").toList) (c :: (cs ++ [rbrace])) = false := by
                    rw [show ("true").toList = 't' :: ("rue").toList from rfl]
                    exact isPrefixOf_cons_false (by rw [← hc]; decide)
                  have h5x : List.isPrefixOf (("false").toList) (c :: (cs ++ [rbrace])) = true := by
                    rw [← List.cons_append]
                    exact isPrefixOf_append h5
                  rw [if_neg (by rw [h4x]; exact Bool.false_ne_true), if_pos h5x]
                  have hlen := isPrefixOf_length_le h5
                  rw [show (("false").toList).length = 5 from rfl] at hlen
                  rw [Option.some.injEq, Prod.mk.injEq] at h ⊢
                  rw [← List.cons_append, drop_append_of_le hlen]
                  exact ⟨h.1, by rw [← h.2]⟩
                · by_cases h6 : List.isPrefixOf (("null").toList) (c :: cs) = true
                  · rw [if_neg h4, if_neg h5, if_pos h6] at h
                    have hc : 'n' = c := prefix_head_eq2 (by
                      rw [show ("null").toList = 'n' :: ("ull").toList from rfl] at h6
                      exact h6)
                    have h4x : List.isPrefixOf (("true").toList) (c :: (cs ++ [rbrace])) = false := by
                      rw [show ("true").toList = 't' :: ("rue").toList from rfl]
                      exact isPrefixOf_cons_false (by rw [← hc]; decide)
                    have h5x : List.isPrefixOf (("false").toList) (c :: (cs ++ [rbrace])) = false := by
                      rw [show ("false").toList = 'f' :: ("alse").toList from rfl]
                      exact isPrefixOf_cons_false (by rw [← hc]; decide)
                    have h6x : List.isPrefixOf (("null").toList) (c :: (cs ++ [rbrace])) = true := by
                      rw [← List.cons_append]
                      exact isPrefixOf_append h6
                    rw [if_neg (by rw [h4x]; exact Bool.false_ne_true), if_neg (by rw [h5x]; exact Bool.false_ne_true), if_pos h6x]
                    have hlen := isPrefixOf_length_le h6
                    rw [show (("null").toList).length = 4 from rfl] at hlen
                    rw [Option.some.injEq, Prod.mk.injEq] at h ⊢
                    rw [← List.cons_append, drop_append_of_le hlen]
                    exact ⟨h.1, by rw [← h.2]⟩
                  · rw [if_neg h4, if_neg h5, if_neg h6] at h
                    rw [Option.map_eq_some'] at h
                    obtain ⟨r, hr, hrf⟩ := h
                    have hhead := parseNum_head (r := r) hr
                    obtain ⟨hT, hF, hN⟩ := num_head_ne hhead
                    have h4x : List.isPrefixOf (("true").toList) (c :: (cs ++ [rbrace])) = false := by
                      rw [show ("true").toList = 't' :: ("rue").toList from rfl]
                      exact isPrefixOf_cons_false hT
                    have h5x : List.isPrefixOf (("false").toList) (c :: (cs ++ [rbrace])) = false := by
                      rw [show ("false").toList = 'f' :: ("alse").toList from rfl]
                      exact isPrefixOf_cons_false hF
                    have h6x : List.isPrefixOf (("null").toList) (c :: (cs ++ [rbrace])) = false := by
                      rw [show ("null").toList = 'n' :: ("ull").toList from rfl]
                      exact isPrefixOf_cons_false hN
                    rw [if_neg (by rw [h4x]; exact Bool.false_ne_true), if_neg (by rw [h5x]; exact Bool.false_ne_true), if_neg (by rw [h6x]; exact Bool.false_ne_true)]
                    have hext := parseNum_ext (c :: cs) r.1 r.2 (by rw [hr])
                    rw [List.cons_append] at hext
                    rw [hext]
                    simp only [Option.map_some']
                    rw [Prod.mk.injEq] at hrf
                    rw [← hrf.1, ← hrf.2]
    · -- parseMembers
      intro l m rest h
      rw [parseMembers] at h
      rw [parseMembers]
      split at h
      · next cs heq =>
          simp only [skipWS_append_cons heq]
          cases hpsb : parseStringBody cs with
          | none => rw [hpsb] at h; exact absurd h (by simp)
          | some kr =>
            obtain ⟨k, r1⟩ := kr
            simp only [hpsb] at h
            simp only [parseStringBody_ext cs (by rw [hpsb]) [rbrace]]
            split at h
            · next r2 heq3 =>
                simp only [skipWS_append_cons heq3]
                cases hpv : parseValue fuel r2 with
                | none => rw [hpv] at h; exact absurd h (by simp)
                | some vr =>
                  obtain ⟨v2, r3⟩ := vr
                  simp only [hpv] at h
                  simp only [ihV r2 v2 r3 (by rw [hpv])]
                  split at h
                  · next r4 heq5 =>
                      simp only [skipWS_append_cons heq5]
                      rw [Option.map_eq_some'] at h
                      obtain ⟨mm, hmm, hmf⟩ := h
                      simp only [ihM r4 mm.1 mm.2 (by rw [hmm])]
                      simp only [Option.map_some']
                      rw [Prod.mk.injEq] at hmf
                      rw [← hmf.1, ← hmf.2]
                  · next d r4 hne heq5 =>
                      by_cases hd : d = rbrace
                      · rw [if_pos hd] at h
                        simp only [skipWS_append_cons heq5]
                        rw [if_pos hd]
                        rw [Option.some.injEq, Prod.mk.injEq] at h
                        rw [← h.1, ← h.2]
                      · rw [if_neg hd] at h
                        exact absurd h (by simp)
                  · next heq5 => exact absurd h (by simp)
            · next hno => exact absurd h (by simp)
      · next hno => exact absurd h (by simp)
    · -- parseElems
      intro l xs rest h
      rw [parseElems] at h
      rw [parseElems]
      cases hpv : parseValue fuel l with
      | none => rw [hpv] at h; exact absurd h (by simp)
      | some vr =>
        obtain ⟨v2, r1⟩ := vr
        simp only [hpv] at h
        simp only [ihV l v2 r1 (by rw [hpv])]
        split at h
        · next r2 heq =>
            simp only [skipWS_append_cons heq]
            rw [Option.map_eq_some'] at h
            obtain ⟨mm, hmm, hmf⟩ := h
            simp only [ihE r2 mm.1 mm.2 (by rw [hmm])]
            simp only [Option.map_some']
            rw [Prod.mk.injEq] at hmf
            rw [← hmf.1, ← hmf.2]
        · next r2 heq =>
            simp only [skipWS_append_cons heq]
            rw [Option.some.injEq, Prod.mk.injEq] at h
            rw [← h.1, ← h.2]
        · next hne1 hne2 => exact absurd h (by simp)

theorem jsonLoads_append_rbrace {l : List Char} {v : Json}
    (h : jsonLoads l = some v) : jsonLoads (l ++ [rbrace]) = none := by
  rw [jsonLoads] at h
  split at h
  · next v2 rest heq =>
      split at h
      · next hws =>
          have hext := (parse_ext_all (l.length + 1)).1 l v2 rest heq
          rw [jsonLoads]
          have hlen : (l ++ [rbrace]).length + 1 = l.length + 1 + 1 := by simp
          rw [hlen]
          simp only [hext]
          rw [List.isEmpty_iff] at hws
          rw [skipWS_append_nil hws, skipWS_rbrace]
          simp
      · exact absurd h (by simp)
  · exact absurd h (by simp)

theorem isPrefixOf_nil (pat : List Char) : List.isPrefixOf pat ([] : List Char) = pat.isEmpty := by
  cases pat <;> rfl

theorem breakOnSub_none {sep l : List Char} (h : containsSubstr sep l = false) :
    breakOnSub sep l = none := by
  induction l with
  | nil =>
      rw [containsSubstr] at h
      rw [breakOnSub, isPrefixOf_nil, h]
      simp
  | cons c cs ih =>
      rw [containsSubstr, Bool.or_eq_false_iff] at h
      rw [breakOnSub, h.1]
      simp only [Bool.false_eq_true, if_false]
      rw [ih h.2]
      rfl

theorem splitOnSub_single {sep l : List Char} (h : breakOnSub sep l = none) :
    splitOnSub sep l = [l] := by
  rw [splitOnSub, splitOnSubAux, h]

end RW.PyJson

open RW RW.PyJson RW.DataCatalog in
/-- C4: on the two-object fixture, `_load_plot_specs` splits at the single
`"\x7d\n\x7b"` boundary into two brace-deprived chunks, re-attaches the
braces, decodes both, and the resulting mapping has exactly the keys
`"A"` and `"B"`, in insertion order. -/
theorem c4_load_plot_specs_fixture :
    splitOnSub specSep specFixtureAB = [specObjA.dropLast, specObjB.drop 1]
    ∧ (jsonLoads (specObjA.dropLast ++ [rbrace])).isSome = true
    ∧ (jsonLoads (lbrace :: specObjB.drop 1)).isSome = true
    ∧ (lookupA (("A").toList) (load_plot_specs specFixtureAB)).isSome = true
    ∧ (lookupA (("B").toList) (load_plot_specs specFixtureAB)).isSome = true
    ∧ (load_plot_specs specFixtureAB).map Prod.fst = [("A").toList, ("B").toList] := by
  refine ⟨by decide, by decide, by decide, by decide, by decide, by decide⟩

open RW RW.PyJson RW.DataCatalog in
/-- C9: for every well-formed single-object `plot_specs.json` — a content
with no `"\x7d\n\x7b"` boundary that `json.loads` accepts as one document —
the whole text is the unique chunk, the `i == 0` branch appends an extra
closing brace, the decode of the re-attached chunk fails (trailing data),
the chunk is skipped, and the loaded mapping is empty; no exception is
raised (total function). -/
theorem c9_load_plot_specs_single (content : List Char) (v : Json)
    (hb : containsSubstr specSep content = false)
    (hj : jsonLoads content = some v) :
    splitOnSub specSep content = [content]
    ∧ jsonLoads (content ++ [rbrace]) = none
    ∧ load_plot_specs content = [] := by
  have hsplit : splitOnSub specSep content = [content] :=
    splitOnSub_single (breakOnSub_none hb)
  have hdec : jsonLoads (content ++ [rbrace]) = none := jsonLoads_append_rbrace hj
  refine ⟨hsplit, hdec, ?_⟩
  rw [load_plot_specs]
  simp only [hsplit]
  rw [show (List.length [content]) = 1 from rfl]
  rw [loadSpecsAux]
  simp [hdec, loadSpecsAux]

open RW RW.PyJson RW.DataCatalog in
/-- Witness for C9: the single-object fixture has no boundary, decodes to
the object with title `"A"`, and loads to the empty mapping. -/
theorem c9_load_plot_specs_witness :
    containsSubstr specSep specObjA = false
    ∧ jsonLoads specObjA = some (Json.jobj [((("title").toList), Json.jstr (("A").toList))])
    ∧ load_plot_specs specObjA = [] :=
  ⟨by decide, by rfl,
    (c9_load_plot_specs_single specObjA
      (Json.jobj [((("title").toList), Json.jstr (("A").toList))])
      (by decide) (by rfl)).2.2⟩

namespace RW.SectionMapper

open RW RW.DataCatalog

theorem scKeyLtB_asymm (a b : Nat × ChartMeta) (h : scKeyLtB a b = true) :
    scKeyLtB b a = false := by
  simp only [scKeyLtB, Bool.or_eq_true, Bool.and_eq_true, decide_eq_true_eq] at h
  simp only [scKeyLtB, Bool.or_eq_false_iff, Bool.and_eq_false_iff]
  rcases h with h | ⟨h1, h2⟩
  · constructor
    · simp only [decide_eq_false_iff_not]
      omega
    · left
      simp only [decide_eq_false_iff_not]
      omega
  · constructor
    · simp only [decide_eq_false_iff_not]
      omega
    · right
      exact strLt_asymm h2
  
theorem scKeyLtB_negtrans (a b c : Nat × ChartMeta)
    (h1 : scKeyLtB b a = false) (h2 : scKeyLtB c b = false) :
    scKeyLtB c a = false := by
  simp only [scKeyLtB, Bool.or_eq_false_iff, Bool.and_eq_false_iff,
    decide_eq_false_iff_not] at h1 h2 ⊢
  obtain ⟨h1a, h1b⟩ := h1
  obtain ⟨h2a, h2b⟩ := h2
  refine ⟨by omega, ?_⟩
  by_cases hq : c.1 = a.1
  · right
    have hcb : c.1 = b.1 := by omega
    have hba : b.1 = a.1 := by omega
    rcases h1b with h1b | h1b
    · exact absurd hba h1b
    · rcases h2b with h2b | h2b
      · exact absurd hcb h2b
      · exact strLt_negtrans h1b h2b
  · left
    exact hq

theorem find_matching_charts_facts (keywords : List (List Char))
    (section_id : String) (all_charts : List ChartMeta) :
    (find_matching_charts keywords section_id all_charts).length ≤ 5
    ∧ (∀ c ∈ find_matching_charts keywords section_id all_charts,
        0 < score_chart c keywords section_id (get_category_matches section_id))
    ∧ (find_matching_charts keywords section_id all_charts).Pairwise
        (fun a b => scKeyLtB
          (score_chart b keywords section_id (get_category_matches section_id), b)
          (score_chart a keywords section_id (get_category_matches section_id), a)
          = false) := by
  have hre : find_matching_charts keywords section_id all_charts =
      ((List.insertionSort (fun a b => (!(scKeyLtB b a)) = true)
        (all_charts.filterMap (fun c =>
          if 0 < score_chart c keywords section_id (get_category_matches section_id) then
            some (score_chart c keywords section_id (get_category_matches section_id), c)
          else none))).take 5).map Prod.snd := rfl
  rw [hre]
  have hmem : ∀ p ∈ all_charts.filterMap (fun c =>
      if 0 < score_chart c keywords section_id (get_category_matches section_id) then
        some (score_chart c keywords section_id (get_category_matches section_id), c)
      else none),
      p.1 = score_chart p.2 keywords section_id (get_category_matches section_id)
        ∧ 0 < p.1 := by
    intro p hp
    rcases List.mem_filterMap.mp hp with ⟨c, _, hc⟩
    by_cases h0 : 0 < score_chart c keywords section_id (get_category_matches section_id)
    · rw [if_pos h0] at hc
      cases hc
      exact ⟨rfl, h0⟩
    · rw [if_neg h0] at hc
      cases hc
  have hperm := List.perm_insertionSort (fun a b => (!(scKeyLtB b a)) = true)
    (all_charts.filterMap (fun c =>
      if 0 < score_chart c keywords section_id (get_category_matches section_id) then
        some (score_chart c keywords section_id (get_category_matches section_id), c)
      else none))
  have hmem2 : ∀ p ∈ List.insertionSort (fun a b => (!(scKeyLtB b a)) = true)
      (all_charts.filterMap (fun c =>
        if 0 < score_chart c keywords section_id (get_category_matches section_id) then
          some (score_chart c keywords section_id (get_category_matches section_id), c)
        else none)),
      p.1 = score_chart p.2 keywords section_id (get_category_matches section_id)
        ∧ 0 < p.1 := fun p hp => hmem p (hperm.mem_iff.mp hp)
  have hpair := sorted_pairwise_of_insertionSort scKeyLtB scKeyLtB_asymm scKeyLtB_negtrans
    (all_charts.filterMap (fun c =>
      if 0 < score_chart c keywords section_id (get_category_matches section_id) then
        some (score_chart c keywords section_id (get_category_matches section_id), c)
      else none))
  have hmem3 := fun p hp => hmem2 p (List.take_subset 5 _ hp)
  have hpair3 := hpair.sublist (List.take_sublist 5 _)
  refine ⟨?_, ?_, ?_⟩
  · rw [List.length_map, List.length_take]
    exact min_le_left _ _
  · intro c hc
    rcases List.mem_map.mp hc with ⟨p, hp, hpc⟩
    have h := hmem3 p hp
    rw [← hpc]
    have h1 := h.1
    have h2 := h.2
    omega
  · rw [List.pairwise_map]
    refine hpair3.imp_of_mem ?_
    intro p q hp hq hlt
    have h1 := (hmem3 p hp).1
    have h2 := (hmem3 q hq).1
    rw [← h1, ← h2]
    have hp2 : (p.1, p.2) = p := rfl
    have hq2 : (q.1, q.2) = q := rfl
    rw [hp2, hq2]
    exact hlt

end RW.SectionMapper

open RW RW.DataCatalog RW.SectionMapper in
/-- C6: pure auto-matching returns at most five charts, each with strictly
positive score, ordered by score descending with id ascending (code-point
lexicographic) as tiebreak: for any two returned charts in order, either
the earlier one scores strictly higher, or they tie and the earlier id is
not lexicographically greater. -/
theorem c6_auto_match_order (keywords : List (List Char)) (section_id : String)
    (all_charts : List ChartMeta) :
    (find_matching_charts keywords section_id all_charts).length ≤ 5
    ∧ (∀ c ∈ find_matching_charts keywords section_id all_charts,
        0 < score_chart c keywords section_id (get_category_matches section_id))
    ∧ (find_matching_charts keywords section_id all_charts).Pairwise
        (fun a b =>
          score_chart b keywords section_id (get_category_matches section_id) <
            score_chart a keywords section_id (get_category_matches section_id)
          ∨ (score_chart a keywords section_id (get_category_matches section_id) =
              score_chart b keywords section_id (get_category_matches section_id)
            ∧ strLt b.id a.id = false)) := by
  obtain ⟨h1, h2, h3⟩ := find_matching_charts_facts keywords section_id all_charts
  refine ⟨h1, h2, ?_⟩
  refine h3.imp ?_
  intro a b h
  simp only [scKeyLtB, Bool.or_eq_false_iff, Bool.and_eq_false_iff,
    decide_eq_false_iff_not] at h
  obtain ⟨ha, hb⟩ := h
  by_cases heq : score_chart a keywords section_id (get_category_matches section_id)
      = score_chart b keywords section_id (get_category_matches section_id)
  · right
    refine ⟨heq, ?_⟩
    rcases hb with hb | hb
    · exact absurd heq.symm hb
    · exact hb
  · left
    omega

open RW RW.DataCatalog RW.SectionMapper in
/-- Witness for C6 at a concrete two-chart catalog with tied scores:
the lexicographically smaller id comes first. -/
theorem c6_auto_match_witness :
    (find_matching_charts [] ("emissions")
        [{ id := "y", category := "emissions", title := "Y" },
         { id := "x", category := "emissions", title := "X" }]).length ≤ 5
    ∧ (find_matching_charts [] ("emissions")
        [{ id := "y", category := "emissions", title := "Y" },
         { id := "x", category := "emissions", title := "X" }]).map
          (fun c => c.id) = ["x", "y"] := by
  refine ⟨(find_matching_charts_facts [] ("emissions") _).1, by decide⟩

namespace RW

theorem filter_head?_eq_find? {α : Type} (p : α → Bool) :
    ∀ l : List α, (l.filter p).head? = l.find? p
  | [] => rfl
  | c :: t => by
    by_cases hc : p c = true
    · simp [List.filter_cons, List.find?_cons, hc]
    · simp only [List.filter_cons, List.find?_cons]
      rw [show p c = false from by simpa using hc]
      simp

end RW

open RW RW.ChartReader in
/-- C5: in the relative-shape per-scenario summary, the baseline entry is
the `val` of the first row of the scenario whose first-column value
contains "Net" case-insensitively (so `"net 2025"` qualifies just like
`"Net 2025"`), and `total_reduction` is the 2-decimal rounding of the sum
of `val` over exactly the non-baseline rows, present iff such rows exist.
The classification predicate is exactly case-insensitive substring
containment of "net". -/
theorem c5_baseline_and_total (df : List Row) (scen : String) :
    ((compute_scenario_summary df scen).baseline =
      ((df.filter (fun r => r.scen = scen)).find? (fun r => containsNetB r.dim)).map
        (fun r => r.val))
    ∧ ((compute_scenario_summary df scen).total_reduction =
        if ((df.filter (fun r => r.scen = scen)).filter
            (fun r => !(containsNetB r.dim))).isEmpty then none
        else some (pyRound2 ((((df.filter (fun r => r.scen = scen)).filter
            (fun r => !(containsNetB r.dim))).map (fun r => r.val)).sum)))
    ∧ (∀ s : String, containsNetB s = true ↔
        ∃ a b, pyLower s.toList = a ++ ("net").toList ++ b)
    ∧ containsNetB ("net 2025") = true ∧ containsNetB ("Net 2025") = true := by
  refine ⟨?_, ?_, ?_, by decide, by decide⟩
  · have hbase : (compute_scenario_summary df scen).baseline =
        ((df.filter (fun r => r.scen = scen)).filter
          (fun r => containsNetB r.dim)).head?.map (fun r => r.val) := by
      by_cases h : ((df.filter (fun r => r.scen = scen)).filter
          (fun r => !(containsNetB r.dim))).isEmpty = true
      · simp only [compute_scenario_summary, if_pos h]
        cases ((df.filter (fun r => r.scen = scen)).filter
            (fun r => containsNetB r.dim)) <;> rfl
      · simp only [compute_scenario_summary, if_neg h]
        cases ((df.filter (fun r => r.scen = scen)).filter
            (fun r => containsNetB r.dim)) <;> rfl
    rw [hbase, filter_head?_eq_find?]
  · by_cases h : ((df.filter (fun r => r.scen = scen)).filter
        (fun r => !(containsNetB r.dim))).isEmpty = true
    · simp only [compute_scenario_summary, if_pos h]
    · simp only [compute_scenario_summary, if_neg h]
  · intro s
    exact containsSubstr_iff (("net").toList) (pyLower s.toList)

open RW RW.ChartReader in
/-- Witness for C5 at a concrete frame: a lowercase `"net 2025"` row is the
baseline and the reduction total sums only the other row. -/
theorem c5_baseline_witness :
    (compute_scenario_summary
      [{ dim := "net 2025", scen := "A", val := 7 },
       { dim := "Transport", scen := "A", val := 5 }] ("A")).baseline = some 7
    ∧ containsNetB ("net 2025") = true := by
  refine ⟨?_, (c5_baseline_and_total [] ("A")).2.2.2.1⟩
  rw [(c5_baseline_and_total
    [{ dim := "net 2025", scen := "A", val := 7 },
     { dim := "Transport", scen := "A", val := 5 }] ("A")).1]
  decide

namespace RW.ChartReader

open RW

theorem deep_not_in_part1 (df : List Row) (scen : String) (t : ℚ) :
    Insight.deepestCuts scen t ∉
      (match df.filter (fun r => containsNetB r.dim) with
        | [] => ([] : List Insight)
        | r :: _ => [Insight.baselineEmissions r.val]) := by
  cases df.filter (fun r => containsNetB r.dim) <;> simp

theorem deep_not_in_part2 (df : List Row) (scen : String) (t : ℚ) :
    Insight.deepestCuts scen t ∉
      (if (nonBaselineRows df).isEmpty then ([] : List Insight)
       else
        match ((sectorKeys df).map (fun d => (d, sectorMean df d))).find?
            (fun p => p.2 = listMinQ (((sectorKeys df).map
              (fun d => (d, sectorMean df d))).map Prod.snd)) with
        | some p => [Insight.largestReduction p.1
            |listMinQ (((sectorKeys df).map (fun d => (d, sectorMean df d))).map Prod.snd)|]
        | none => []) := by
  by_cases h : (nonBaselineRows df).isEmpty
  · simp [h]
  · simp only [if_neg h]
    cases ((sectorKeys df).map (fun d => (d, sectorMean df d))).find?
        (fun p => p.2 = listMinQ (((sectorKeys df).map
          (fun d => (d, sectorMean df d))).map Prod.snd)) <;> simp

theorem deep_mem_scenInsights_iff (df : List Row) (scenarios : List String)
    (s scen : String) (t : ℚ) :
    Insight.deepestCuts scen t ∈ scenInsights df scenarios s ↔
      (s = scen
        ∧ ¬ ((df.filter (fun r => r.scen = s)).filter
            (fun r => !(containsNetB r.dim))).isEmpty = true
        ∧ t = scenTotal df s
        ∧ (scenarios.head? = some s ∨ scenTotal df s = globalMinScenTotal df)
        ∧ scenTotal df s < 0) := by
  by_cases hempty : ((df.filter (fun r => r.scen = s)).filter
      (fun r => !(containsNetB r.dim))).isEmpty = true
  · have hnil : scenInsights df scenarios s = [] := by
      simp only [scenInsights]
      rw [if_pos hempty]
    rw [hnil]
    simp only [List.not_mem_nil, false_iff]
    rintro ⟨-, hne, -⟩
    exact hne hempty
  · have hcond2 : ((scenarios.head? = some s ∨
        scenTotal df s = globalMinScenTotal df) ∧ scenTotal df s < 0) ↔
        ((scenarios.head? = some s ∨
          (((df.filter (fun r => r.scen = s)).filter
            (fun r => !(containsNetB r.dim))).map (fun r => r.val)).sum =
            globalMinScenTotal df) ∧
          (((df.filter (fun r => r.scen = s)).filter
            (fun r => !(containsNetB r.dim))).map (fun r => r.val)).sum < 0) :=
      Iff.rfl
    by_cases hcond : (scenarios.head? = some s ∨
        (((df.filter (fun r => r.scen = s)).filter
          (fun r => !(containsNetB r.dim))).map (fun r => r.val)).sum =
          globalMinScenTotal df) ∧
        (((df.filter (fun r => r.scen = s)).filter
          (fun r => !(containsNetB r.dim))).map (fun r => r.val)).sum < 0
    · have hlist : scenInsights df scenarios s =
          Insight.deepestCuts s (scenTotal df s) ::
          (((df.filter (fun r => r.scen = s)).filter
            (fun r => !(containsNetB r.dim))).filter (fun r => 0 < r.val)).map
            (fun r => Insight.netIncrease s r.dim r.val) := by
        simp only [scenInsights]
        rw [if_neg hempty, if_pos hcond]
        rfl
      rw [hlist]
      constructor
      · intro hmem
        rcases List.mem_cons.mp hmem with hmem | hmem
        · have h12 : scen = s ∧ t = scenTotal df s := by
            simpa using hmem
          exact ⟨h12.1.symm, hempty, h12.2, (hcond2.mpr hcond).1, (hcond2.mpr hcond).2⟩
        · rcases List.mem_map.mp hmem with ⟨r, -, hr⟩
          exact absurd hr (by simp)
      · rintro ⟨h1, -, h2, -, -⟩
        exact List.mem_cons.mpr (Or.inl (by rw [h2, h1]))
    · have hlist : scenInsights df scenarios s =
          (((df.filter (fun r => r.scen = s)).filter
            (fun r => !(containsNetB r.dim))).filter (fun r => 0 < r.val)).map
            (fun r => Insight.netIncrease s r.dim r.val) := by
        simp only [scenInsights]
        rw [if_neg hempty, if_neg hcond]
        rfl
      rw [hlist]
      constructor
      · intro hmem
        rcases List.mem_map.mp hmem with ⟨r, -, hr⟩
        exact absurd hr (by simp)
      · rintro ⟨-, -, -, h3, h4⟩
        exact absurd (hcond2.mp ⟨h3, h4⟩) hcond

end RW.ChartReader

open RW RW.ChartReader in
/-- C2 (amended): for every scenario with non-baseline rows, the sentence
`"{scen} achieves deepest total cuts ({total:.2f})"` is emitted exactly
when the scenario's non-baseline total is strictly negative AND (the
scenario is first in sorted order OR its total equals the minimal
per-scenario non-baseline total); it can still fire for two different
scenarios of one chart. -/
theorem c2_deepest_cuts_amended (df : List Row) (scen : String) (t : ℚ)
    (hs : scen ∈ extract_scenarios df)
    (hnb : ¬ ((df.filter (fun r => r.scen = scen)).filter
        (fun r => !(containsNetB r.dim))).isEmpty = true) :
    Insight.deepestCuts scen t ∈ add_emissions_insights df ↔
      (t = scenTotal df scen
        ∧ ((extract_scenarios df).head? = some scen ∨ t = globalMinScenTotal df)
        ∧ t < 0) := by
  have hsplit : add_emissions_insights df =
      (match df.filter (fun r => containsNetB r.dim) with
        | [] => ([] : List Insight)
        | r :: _ => [Insight.baselineEmissions r.val]) ++
      (if (nonBaselineRows df).isEmpty then ([] : List Insight)
       else
        match ((sectorKeys df).map (fun d => (d, sectorMean df d))).find?
            (fun p => p.2 = listMinQ (((sectorKeys df).map
              (fun d => (d, sectorMean df d))).map Prod.snd)) with
        | some p => [Insight.largestReduction p.1
            |listMinQ (((sectorKeys df).map (fun d => (d, sectorMean df d))).map Prod.snd)|]
        | none => []) ++
      (extract_scenarios df).flatMap (scenInsights df (extract_scenarios df)) := rfl
  rw [hsplit]
  simp only [List.mem_append, List.mem_flatMap]
  constructor
  · intro h
    rcases h with (h | h) | h
    · exact absurd h (deep_not_in_part1 df scen t)
    · exact absurd h (deep_not_in_part2 df scen t)
    · rcases h with ⟨s, _, hmem⟩
      rcases (deep_mem_scenInsights_iff df (extract_scenarios df) s scen t).mp hmem
        with ⟨h1, _, h2, h3, h4⟩
      subst h1
      refine ⟨h2, ?_, by rw [h2]; exact h4⟩
      rcases h3 with h3 | h3
      · exact Or.inl h3
      · exact Or.inr (by rw [h2, h3])
  · rintro ⟨h1, h2, h3⟩
    right
    refine ⟨scen, hs, (deep_mem_scenInsights_iff df (extract_scenarios df) scen scen t).mpr
      ⟨rfl, hnb, h1, ?_, by rw [← h1]; exact h3⟩⟩
    rcases h2 with h2 | h2
    · exact Or.inl h2
    · exact Or.inr (by rw [← h1, h2])

open RW RW.ChartReader in
/-- Counterexample to C2 as stated: in `exC2` the scenario `"A"` is first
in sorted order and has non-empty non-baseline rows with total `5`, so the
claim requires the deepest-cuts sentence to be emitted; the code emits
only the largest-reduction and net-increase sentences, because it
additionally requires the total to be strictly negative. -/
theorem c2_deepest_cuts_counterexample :
    extract_scenarios exC2 = ["A"]
    ∧ ¬ ((exC2.filter (fun r => r.scen = ("A" : String))).filter
        (fun r => !(containsNetB r.dim))).isEmpty = true
    ∧ scenTotal exC2 ("A") = 5
    ∧ Insight.deepestCuts ("A") 5 ∉ add_emissions_insights exC2 := by
  have heval : add_emissions_insights exC2 =
      [Insight.largestReduction ("Transport") 5,
       Insight.netIncrease ("A") ("Transport") 5] := by
    simp +decide [add_emissions_insights, nonBaselineRows, sectorKeys, sectorMean,
      extract_scenarios, scenInsights, globalMinScenTotal, listMinQ, containsNetB,
      RW.DataCatalog.sortStrings, exC2]
  refine ⟨by decide, by decide, ?_, ?_⟩
  · simp +decide [scenTotal, containsNetB, exC2]
  · rw [heval]
    decide

open RW RW.ChartReader in
/-- Witness for the amended C2: with a negative total the first scenario
does get the deepest-cuts sentence. -/
theorem c2_deepest_cuts_witness :
    Insight.deepestCuts ("A") (-3) ∈ add_emissions_insights exC2W := by
  have heq : scenTotal exC2W ("A") = -3 := by
    simp +decide [scenTotal, containsNetB, exC2W]
  exact (c2_deepest_cuts_amended exC2W ("A") (-3) (by decide) (by decide)).mpr
    ⟨heq.symm, Or.inl (by decide), by decide⟩

namespace RW.SectionMapper

open RW RW.DataCatalog

theorem add_chart_pres {mc : Option Int} {st : ResolveState} (chart : ChartMeta)
    (h : StOK mc st) : StOK mc (add_chart mc st chart).1 := by
  obtain ⟨h1, h2, h3⟩ := h
  unfold add_chart
  by_cases hseen : fullId chart ∈ st.seen
  · simpa [hseen] using ⟨h1, h2, h3⟩
  · rw [if_neg hseen]
    by_cases hcap : atCap mc st.result.length = true
    · simpa [hcap] using ⟨h1, h2, h3⟩
    · rw [if_neg hcap]
      refine ⟨?_, ?_, ?_⟩
      · simp only [List.map_append, List.map_cons, List.map_nil]
        rw [List.nodup_append]
        refine ⟨h1, by simp, ?_⟩
        intro x hx
        simp only [List.mem_singleton]
        intro hxe
        rw [hxe] at hx
        exact hseen (h2 (fullId chart) hx)
      · intro x hx
        simp only [List.map_append, List.map_cons, List.map_nil,
          List.mem_append, List.mem_singleton] at hx
        rcases hx with hx | hx
        · exact List.mem_cons_of_mem _ (h2 x hx)
        · subst hx
          exact List.mem_cons_self _ _
      · intro m hm hpos
        subst hm
        have hlen := h3 m rfl hpos
        have hcap2 : ¬(m ≠ 0 ∧ m ≤ (st.result.length : Int)) := by
          intro hc
          apply hcap
          simp [atCap, hc.1, hc.2]
        simp only [List.length_append, List.length_cons, List.length_nil]
        push_cast
        omega

theorem addPatternLoop_pres {mc selMax : Option Int} :
    ∀ (cs : List ChartMeta) (count : Nat) (st : ResolveState),
      StOK mc st → StOK mc (addPatternLoop mc selMax cs count st)
  | [], _, st, h => h
  | c :: cs, count, st, h => by
    unfold addPatternLoop
    by_cases hmax : selMaxReached selMax count = true
    · simpa [hmax] using h
    · rw [if_neg hmax]
      exact addPatternLoop_pres cs _ _ (add_chart_pres c h)

theorem addAutoLoop_pres {mc selMax : Option Int} :
    ∀ (cs : List ChartMeta) (count : Nat) (st : ResolveState),
      StOK mc st → StOK mc (addAutoLoop mc selMax cs count st)
  | [], _, st, h => h
  | c :: cs, count, st, h => by
    unfold addAutoLoop
    by_cases hcap : atCap mc st.result.length = true
    · simpa [hcap] using h
    · rw [if_neg hcap]
      by_cases hmax : selMaxReached selMax count = true
      · simpa [hmax] using h
      · rw [if_neg hmax]
        exact addAutoLoop_pres cs _ _ (add_chart_pres c h)

theorem resolveAux_pres (mc : Option Int) (lookupChart : String → Option ChartMeta)
    (matchPattern : String → List ChartMeta) (autos : List ChartMeta) :
    ∀ (sels : List ChartSelector) (st : ResolveState),
      StOK mc st → StOK mc (resolveAux mc lookupChart matchPattern autos sels st)
  | [], st, h => h
  | sel :: rest, st, h => by
    unfold resolveAux
    by_cases hcap : atCap mc st.result.length = true
    · simpa [hcap] using h
    · rw [if_neg hcap]
      refine resolveAux_pres _ _ _ _ rest _ ?_
      by_cases hid : optStrTruthy sel.id = true
      · rw [if_pos hid]
        cases lookupChart (sel.id.getD "") with
        | none => exact h
        | some chart => exact add_chart_pres chart h
      · rw [if_neg hid]
        by_cases hpat : optStrTruthy sel.pattern = true
        · rw [if_pos hpat]
          exact addPatternLoop_pres _ _ _ h
        · rw [if_neg hpat]
          by_cases hauto : sel.auto = true
          · rw [if_pos hauto]
            exact addAutoLoop_pres _ _ _ h
          · rw [if_neg hauto]
            exact h

end RW.SectionMapper

open RW RW.DataCatalog RW.SectionMapper in
/-- C1 (amended): for every configured mapping and every behaviour of the
catalog collaborators, the resolved chart list contains each
`"category/id"` key at most once (in first-added order, the list being
append-only), and whenever `max_charts` is set to a positive value the
list never exceeds it. When `max_charts` is `0` the Python truthiness
test disables the cap (see the counterexample). -/
theorem c1_resolver_dedup_cap (mapping : SectionMapping)
    (lookupChart : String → Option ChartMeta)
    (matchPattern : String → List ChartMeta) (autos : List ChartMeta) :
    ((resolve_configured_charts mapping lookupChart matchPattern autos).map
      fullId).Nodup
    ∧ ∀ m : Int, mapping.max_charts = some m → 0 < m →
        ((resolve_configured_charts mapping lookupChart matchPattern autos).length
          : Int) ≤ m := by
  have h := resolveAux_pres mapping.max_charts lookupChart
    matchPattern autos mapping.selectors ⟨[], []⟩
    ⟨by simp, by simp, by intro m hm hpos; simp; omega⟩
  exact ⟨h.1, h.2.2⟩

open RW RW.DataCatalog RW.SectionMapper in
/-- Counterexample to C1 as stated: `max_charts = 0` is set, yet the
resolver returns one chart — Python's `if mapping.max_charts and ...`
treats `0` as falsy and never enforces the cap, so "the list's length
never exceeds max_charts whenever it is set" is false at this input. -/
theorem c1_resolver_counterexample :
    cexMapping.max_charts = some 0
    ∧ (resolve_configured_charts cexMapping cexLookup (fun _ => []) []).length = 1 :=
  ⟨rfl, by decide⟩

open RW RW.DataCatalog RW.SectionMapper in
/-- Witness for the amended C1: a duplicate selector under a positive cap
yields a single chart, deduplicated and within the cap. -/
theorem c1_resolver_witness :
    ((resolve_configured_charts wMapping cexLookup (fun _ => []) []).map
      fullId).Nodup
    ∧ ((resolve_configured_charts wMapping cexLookup (fun _ => []) []).length
        : Int) ≤ 1
    ∧ (resolve_configured_charts wMapping cexLookup (fun _ => []) []).length = 1 :=
  ⟨(c1_resolver_dedup_cap wMapping cexLookup (fun _ => []) []).1,
   (c1_resolver_dedup_cap wMapping cexLookup (fun _ => []) []).2 1 rfl (by decide),
   by decide⟩

namespace RW.DataCatalog

open RW RW.PyJson

theorem mk_toList (s : String) : String.mk s.toList = s := by
  cases s
  rfl

theorem lookup_foldl_insert {β : Type} (g : String → β) (k : List Char) :
    ∀ (ids : List String) (acc : List (List Char × β)),
      lookupA k (ids.foldl (fun a cid => insertOverwrite cid.toList (g cid) a) acc) =
        if String.mk k ∈ ids then some (g (String.mk k)) else lookupA k acc
  | [], acc => by simp
  | cid :: rest, acc => by
    rw [List.foldl_cons, lookup_foldl_insert g k rest]
    by_cases hrest : String.mk k ∈ rest
    · simp [hrest]
    · rw [if_neg hrest, lookupA_insertOverwrite]
      by_cases hcid : cid.toList = k
      · have hc2 : cid = String.mk k := by
          rw [← hcid]
          exact (mk_toList cid).symm
        rw [if_pos hcid, hc2, if_pos (List.mem_cons_self _ _)]
      · have hc2 : ¬ String.mk k ∈ cid :: rest := by
          intro hmem
          rcases List.mem_cons.mp hmem with hx | hx
          · exact hcid (by rw [← hx]; rfl)
          · exact hrest hx
        rw [if_neg hcid, if_neg hc2]

theorem mem_ids_iff_hasChartFile (d : FSDir) (s : String) :
    s ∈ (d.files.filterMap
        (fun f => if f.suffix ∈ chartExts then some f.stem else none)).dedup ↔
      hasChartFile d s = true := by
  rw [List.mem_dedup, List.mem_filterMap]
  unfold hasChartFile
  rw [List.any_eq_true]
  constructor
  · rintro ⟨f, hf, hfs⟩
    by_cases hext : f.suffix ∈ chartExts
    · rw [if_pos hext] at hfs
      exact ⟨f, hf, by simp [hext, Option.some.inj hfs]⟩
    · rw [if_neg hext] at hfs
      cases hfs
  · rintro ⟨f, hf, hfs⟩
    simp only [Bool.and_eq_true, decide_eq_true_eq] at hfs
    exact ⟨f, hf, by rw [if_pos hfs.1, hfs.2]⟩

theorem lookup_scan_category (specs : List (List Char × Json)) (d : FSDir)
    (k : List Char) (acc : List (List Char × ChartMeta)) :
    lookupA k (scan_category specs d acc) =
      if hasChartFile d (String.mk k) = true then
        some (mkChart specs d (String.mk k))
      else lookupA k acc := by
  unfold scan_category
  rw [lookup_foldl_insert (fun cid => mkChart specs d cid) k]
  have hmem : String.mk k ∈ sortStrings (d.files.filterMap
      (fun f => if f.suffix ∈ chartExts then some f.stem else none)).dedup ↔
      hasChartFile d (String.mk k) = true := by
    rw [show sortStrings ((d.files.filterMap
        (fun f => if f.suffix ∈ chartExts then some f.stem else none)).dedup) =
      List.insertionSort (fun a b => strLeB a b = true)
        ((d.files.filterMap
          (fun f => if f.suffix ∈ chartExts then some f.stem else none)).dedup)
      from rfl]
    rw [(List.perm_insertionSort (fun a b => strLeB a b = true) _).mem_iff]
    exact mem_ids_iff_hasChartFile d (String.mk k)
  by_cases h : hasChartFile d (String.mk k) = true
  · rw [if_pos (hmem.mpr h), if_pos h]
  · rw [if_neg (fun hx => h (hmem.mp hx)), if_neg h]

theorem lookup_scan_fold (specs : List (List Char × Json)) (k : List Char) :
    ∀ (cats : List FSDir) (acc : List (List Char × ChartMeta)),
      lookupA k (cats.foldl (fun a d => scan_category specs d a) acc) =
        ((cats.filter (fun d => hasChartFile d (String.mk k))).getLast?).elim
          (lookupA k acc) (fun d => some (mkChart specs d (String.mk k)))
  | [], acc => by simp
  | d :: rest, acc => by
    rw [List.foldl_cons, lookup_scan_fold specs k rest (scan_category specs d acc),
      lookup_scan_category]
    by_cases hd : hasChartFile d (String.mk k) = true
    · rw [if_pos hd]
      rw [show (d :: rest).filter (fun d2 => hasChartFile d2 (String.mk k)) =
          d :: rest.filter (fun d2 => hasChartFile d2 (String.mk k)) from by
        simp [List.filter_cons, hd]]
      cases hrest : (rest.filter (fun d2 => hasChartFile d2 (String.mk k))).getLast? with
      | none =>
        have hnil : rest.filter (fun d2 => hasChartFile d2 (String.mk k)) = [] := by
          simpa using hrest
        rw [hnil]
        simp only [List.getLast?_singleton, Option.elim]
      | some d2 =>
        have hne : ¬ rest.filter (fun d2 => hasChartFile d2 (String.mk k)) = [] := by
          intro hn
          rw [hn] at hrest
          simp at hrest
        rw [RW.OutlineParser.getLast?_cons_of_ne_nil hne, hrest]
        simp [Option.elim]
    · rw [if_neg hd]
      rw [show (d :: rest).filter (fun d2 => hasChartFile d2 (String.mk k)) =
          rest.filter (fun d2 => hasChartFile d2 (String.mk k)) from by
        simp [List.filter_cons, hd]]

end RW.DataCatalog

namespace RW

theorem pairwise_getLast {α : Type} {R : α → α → Prop} :
    ∀ (l : List α) (z : α), l.Pairwise R → l.getLast? = some z →
      ∀ y ∈ l, y = z ∨ R y z
  | [], z, _, hz, y, hy => by simp at hz
  | [a], z, hp, hz, y, hy => by
    have hza : a = z := by simpa using hz
    have hya : y = a := by simpa using hy
    exact Or.inl (hya.trans hza)
  | a :: b :: t2, z, hp, hz, y, hy => by
    rcases List.pairwise_cons.mp hp with ⟨ha, ht⟩
    rw [RW.OutlineParser.getLast?_cons_of_ne_nil (by simp)] at hz
    rcases List.mem_cons.mp hy with hya | hy2
    · refine Or.inr ?_
      rw [hya]
      exact ha z (mem_of_getLast? hz)
    · exact pairwise_getLast (b :: t2) z ht hz y hy2

theorem prop_foldl_insert {β : Type} (P : List Char × β → Prop) (g : String → β)
    (hg : ∀ cid, P (cid.toList, g cid)) :
    ∀ (ids : List String) (acc : List (List Char × β)),
      (∀ p ∈ acc, P p) →
      ∀ p ∈ ids.foldl (fun a cid => insertOverwrite cid.toList (g cid) a) acc, P p
  | [], acc, hacc, p, hp => hacc p hp
  | cid :: rest, acc, hacc, p, hp => by
    rw [List.foldl_cons] at hp
    refine prop_foldl_insert P g hg rest _ ?_ p hp
    intro q hq
    rcases insertOverwrite_mem_cases _ _ _ _ hq with hq2 | hq2
    · exact hacc q hq2
    · rw [hq2]
      exact hg cid

theorem keys_nodup_foldl_insert {β : Type} (g : String → β) :
    ∀ (ids : List String) (acc : List (List Char × β)),
      (acc.map Prod.fst).Nodup →
      ((ids.foldl (fun a cid => insertOverwrite cid.toList (g cid) a) acc).map
        Prod.fst).Nodup
  | [], _, h => h
  | cid :: rest, acc, h => by
    rw [List.foldl_cons]
    exact keys_nodup_foldl_insert g rest _ (keys_nodup_insertOverwrite _ _ _ h)

end RW

namespace RW.DataCatalog

open RW RW.PyJson

theorem scan_fold_inv (specs : List (List Char × Json)) :
    ∀ (cats : List FSDir) (acc : List (List Char × ChartMeta)),
      (acc.map Prod.fst).Nodup → (∀ p ∈ acc, p.2.id.toList = p.1) →
      (((cats.foldl (fun a d => scan_category specs d a) acc).map Prod.fst).Nodup
        ∧ ∀ p ∈ cats.foldl (fun a d => scan_category specs d a) acc,
            p.2.id.toList = p.1)
  | [], acc, h1, h2 => ⟨h1, h2⟩
  | d :: rest, acc, h1, h2 => by
    rw [List.foldl_cons]
    refine scan_fold_inv specs rest _ ?_ ?_
    · exact keys_nodup_foldl_insert (fun cid => mkChart specs d cid) _ _ h1
    · exact prop_foldl_insert (fun p => p.2.id.toList = p.1)
        (fun cid => mkChart specs d cid) (fun cid => rfl) _ _ h2

theorem scan_charts_inv (specs : List (List Char × Json)) (dirs : List FSDir) :
    ((scan_charts specs dirs).map Prod.fst).Nodup
    ∧ ∀ p ∈ scan_charts specs dirs, p.2.id.toList = p.1 :=
  scan_fold_inv specs
    (List.insertionSort (fun a b => strLeB a.name b.name = true)
      (dirs.filter (fun d => !(startsWithDot d.name)))) []
    (by simp) (by simp)

theorem list_charts_ids_nodup (specs : List (List Char × Json)) (dirs : List FSDir) :
    ((list_charts (scan_charts specs dirs) none).map (fun c => c.id)).Nodup := by
  obtain ⟨h1, h2⟩ := scan_charts_inv specs dirs
  have hperm : (list_charts (scan_charts specs dirs) none).Perm
      ((scan_charts specs dirs).map Prod.snd) :=
    List.perm_insertionSort _ _
  rw [(hperm.map (fun c => c.id)).nodup_iff, List.map_map]
  have hcong : (scan_charts specs dirs).map ((fun c => c.id) ∘ Prod.snd) =
      (scan_charts specs dirs).map (fun p => String.mk p.1) := by
    apply List.map_congr_left
    intro p hp
    show p.2.id = String.mk p.1
    rw [← h2 p hp, mk_toList]
  rw [hcong,
    show (scan_charts specs dirs).map (fun p => String.mk p.1) =
      ((scan_charts specs dirs).map Prod.fst).map String.mk from by
        rw [List.map_map]
        rfl]
  exact h1.map (fun a b h => by injection h)

end RW.DataCatalog

open RW RW.PyJson RW.DataCatalog in
/-- C10: the catalog stores charts in one dict keyed by bare chart id. If
`get_chart` resolves `id` to `m`, then `m.id = id`, `m` is the `ChartMeta`
built from some non-dot category folder of the data root that contains a
chart file with stem `id`, and that folder's name is lexicographically
greatest among all such folders (categories are scanned in sorted order,
later scans overwrite). `list_charts()` never returns two charts with
equal id. -/
theorem c10_catalog_last_category_wins (plot_specs : List (List Char × Json))
    (dirs : List FSDir) (id : String) (m : ChartMeta) :
    (get_chart (scan_charts plot_specs dirs) id = some m →
      m.id = id
      ∧ (∃ d ∈ dirs, (!(startsWithDot d.name)) = true ∧ hasChartFile d id = true
          ∧ m = mkChart plot_specs d id ∧ m.category = d.name)
      ∧ (∀ d2 ∈ dirs, (!(startsWithDot d2.name)) = true → hasChartFile d2 id = true →
          strLt m.category d2.name = false))
    ∧ ((list_charts (scan_charts plot_specs dirs) none).map (fun c => c.id)).Nodup := by
  refine ⟨?_, list_charts_ids_nodup plot_specs dirs⟩
  intro hm
  have hmk := mk_toList id
  have hm2 : lookupA id.toList (scan_charts plot_specs dirs) = some m := hm
  have hlook : lookupA id.toList (scan_charts plot_specs dirs) =
      (((List.insertionSort (fun a b => strLeB a.name b.name = true)
          (dirs.filter (fun d => !(startsWithDot d.name)))).filter
          (fun d => hasChartFile d (String.mk id.toList))).getLast?).elim
        (lookupA id.toList [])
        (fun d => some (mkChart plot_specs d (String.mk id.toList))) :=
    lookup_scan_fold plot_specs id.toList
      (List.insertionSort (fun a b => strLeB a.name b.name = true)
        (dirs.filter (fun d => !(startsWithDot d.name)))) []
  rw [hlook] at hm2
  cases hgl : ((List.insertionSort (fun a b => strLeB a.name b.name = true)
      (dirs.filter (fun d => !(startsWithDot d.name)))).filter
      (fun d => hasChartFile d (String.mk id.toList))).getLast? with
  | none =>
    rw [hgl] at hm2
    exact absurd hm2 (by simp [Option.elim, lookupA])
  | some d =>
    rw [hgl] at hm2
    simp only [Option.elim] at hm2
    rw [hmk] at hm2
    have hmeq : m = mkChart plot_specs d id := (Option.some.inj hm2).symm
    have hd := mem_of_getLast? hgl
    rw [List.mem_filter] at hd
    have hdin : d ∈ dirs.filter (fun d => !(startsWithDot d.name)) :=
      (List.perm_insertionSort (fun a b => strLeB a.name b.name = true) _).mem_iff.mp hd.1
    rw [List.mem_filter] at hdin
    have hpred := hd.2
    rw [hmk] at hpred
    refine ⟨by rw [hmeq]; rfl, ⟨d, hdin.1, hdin.2, hpred, hmeq, by rw [hmeq]; rfl⟩, ?_⟩
    intro d2 hd2 hnd2 hcf2
    have hd2s : d2 ∈ List.insertionSort (fun a b => strLeB a.name b.name = true)
        (dirs.filter (fun d => !(startsWithDot d.name))) :=
      (List.perm_insertionSort (fun a b => strLeB a.name b.name = true) _).mem_iff.mpr
        (List.mem_filter.mpr ⟨hd2, hnd2⟩)
    have hd2f : d2 ∈ (List.insertionSort (fun a b => strLeB a.name b.name = true)
        (dirs.filter (fun d => !(startsWithDot d.name)))).filter
        (fun d => hasChartFile d (String.mk id.toList)) :=
      List.mem_filter.mpr ⟨hd2s, by rw [hmk]; exact hcf2⟩
    have hsorted : (List.insertionSort (fun a b => strLeB a.name b.name = true)
        (dirs.filter (fun d => !(startsWithDot d.name)))).Pairwise
        (fun a b => strLt b.name a.name = false) := by
      have h := sorted_pairwise_of_insertionSort (fun a b : FSDir => strLt a.name b.name)
        (fun a b h => strLt_asymm h) (fun a b c h1 h2 => strLt_negtrans h1 h2)
        (dirs.filter (fun d => !(startsWithDot d.name)))
      exact h
    have hsorted2 := hsorted.filter (fun d => hasChartFile d (String.mk id.toList))
    rcases pairwise_getLast _ _ hsorted2 hgl d2 hd2f with heq | hlt
    · rw [hmeq, heq]
      show strLt d.name d.name = false
      exact lexLt_irrefl _
    · rw [hmeq]
      show strLt d.name d2.name = false
      exact hlt

open RW RW.PyJson RW.DataCatalog in
/-- Witness for C10: with categories `alpha` and `beta` both holding stem
`"x"`, `get_chart "x"` returns the chart from `beta`, the greater name. -/
theorem c10_catalog_witness :
    get_chart (scan_charts [] [exDirA, exDirB]) ("x") = some (mkChart [] exDirB ("x"))
    ∧ (mkChart [] exDirB ("x")).category = "beta"
    ∧ strLt (mkChart [] exDirB ("x")).category exDirA.name = false
    ∧ ((list_charts (scan_charts [] [exDirA, exDirB]) none).map (fun c => c.id)).Nodup := by
  have hg : get_chart (scan_charts [] [exDirA, exDirB]) ("x") =
      some (mkChart [] exDirB ("x")) := by decide
  have h := (c10_catalog_last_category_wins [] [exDirA, exDirB] ("x")
    (mkChart [] exDirB ("x"))).1 hg
  exact ⟨hg, by decide, h.2.2 exDirA (by decide) (by decide) (by decide),
    (c10_catalog_last_category_wins [] [exDirA, exDirB] ("x")
      (mkChart [] exDirB ("x"))).2⟩

